import Mathlib

/-
Verification of the lockfile-intersection checker (src/main.rs).

The development shallowly embeds the core of the program: the package data
model, the universe builder (`try_insert_package`,
`add_all_dependencies_recursive` as a fuel-indexed walk,
`add_packages_in_dependency_tree`, `add_all_packages_in_lockfile`), the
two-pass reconciliation in `Program::run`, and the diff reporter.  Machine
recursion is modelled with explicit fuel so that every definition is
executable; a fuel-sufficiency theorem shows the walk never exhausts a fuel
budget of one more than the number of packages in the lockfile.
-/

namespace LockDiff

/-- A resolved source of a package: an id string plus the optional precise
field (for instance a VCS commit), following `cargo_lock::SourceId`. -/
structure Src where
  id : String
  precise : Option String
deriving DecidableEq, Repr

/-- A dependency edge: a matcher for a package by name with optional version
and source constraints, following `cargo_lock::Dependency`. -/
structure Dep where
  name : String
  version : Option String
  source : Option Src
deriving DecidableEq, Repr

/-- A package record of a lockfile, following `cargo_lock::Package`: name,
version (compared only for equality), optional checksum, optional source, and
the list of dependency edges. -/
structure Package where
  name : String
  version : String
  checksum : Option String
  source : Option Src
  dependencies : List Dep
deriving DecidableEq, Repr

/-- Per-side configuration, mirroring `Spec` in src/main.rs: source location,
optional root name, optional root hash, and the exclusion set. -/
structure Spec where
  src : String
  pkg_name : Option String
  pkg_hash : Option String
  exclude_pkgs : Finset String
deriving DecidableEq

/-- The two insertion phases, mirroring `Phase` in src/main.rs. -/
inductive Phase where
  | nameIntersection
  | nameAndVersionIntersection
deriving DecidableEq, Repr

/-- A package universe: the `BTreeMap<Name, (Package, Vec<Package>)>` of the
program, modelled as an association list queried by first match. -/
abbrev PkgMap := List (String × Package × List Package)

/-- Lookup in a package universe, mirroring `BTreeMap::get`. -/
def findPkg : PkgMap → String → Option (Package × List Package)
  | [], _ => none
  | e :: u, n => if e.1 = n then some e.2 else findPkg u n

/-- The set of names bound in a package universe (the key set of the map). -/
def pkgNames : PkgMap → Finset String
  | [] => ∅
  | e :: u => insert e.1 (pkgNames u)

/-- The set of package names occurring in a lockfile's package list. -/
def lockfileNames : List Package → Finset String
  | [] => ∅
  | p :: ps => insert p.name (lockfileNames ps)

/-- Lexicographic comparison of character lists by code point, the order in
which a `BTreeSet` of names is iterated (for UTF-8 strings, byte-wise and
code-point-wise lexicographic order coincide). -/
def charListLe : List Char → List Char → Bool
  | [], _ => true
  | _ :: _, [] => false
  | c :: cs, d :: ds =>
    if c.toNat < d.toNat then true
    else if d.toNat < c.toNat then false
    else charListLe cs ds

/-- Lexicographic string comparison, the ascending order of `BTreeSet<Name>`
iteration. -/
def strLe (a b : String) : Bool := charListLe a.data b.data

/-- The ordering proposition underlying `strLe`. -/
def strLeP (a b : String) : Prop := strLe a b = true

instance : DecidableRel strLeP := fun a b => instDecidableEqBool (strLe a b) true

/-- The sorted deduplicated list of names common to two universes: the
`BTreeSet<Name>` intersection of `add_packages_and_calculate_intesection`,
observed through its iteration order. -/
def interList (ua ub : PkgMap) : List String :=
  ((ua.map (fun e => e.1)).filter (fun n => decide (n ∈ pkgNames ub))).dedup.insertionSort
    strLeP

/-- The per-side state, mirroring `State` in src/main.rs (the `verbose` flag
is threaded separately into the reporter, its only point of use beyond
logging). -/
structure St where
  spec : Spec
  lockfile : List Package
  packages : PkgMap
  phase : Phase
deriving DecidableEq

/-- Outcome of a stateful step: success, error string, or fuel exhaustion of
the modelled recursion. -/
inductive Res (α : Type) where
  | ok : α → Res α
  | err : String → Res α
  | out : Res α
deriving DecidableEq, Repr

/-- Rendering of a dependency path, mirroring `path_to_str` in src/main.rs. -/
def path_to_str (path : List Package) : String :=
  String.intercalate " -> " (path.map (fun p => p.name ++ "@" ++ p.version))

/-- The error message of `try_insert_package` for a same-name
different-version collision, mirroring the `format!` in src/main.rs. -/
def multipleVersionsMsg (name src v1 v2 : String) (path : List Package) : String :=
  "Package " ++ (name ++ (" has multiple versions in lockfile " ++ (src ++ (": " ++
    (v1 ++ (" and " ++ (v2 ++ (", path: " ++ path_to_str path))))))))

/-- Insertion into a universe, mirroring `State::try_insert_package`: an
existing binding with a different version is a hard error in the
name-and-version phase; an existing binding otherwise is a no-op returning
`false`; an absent name is inserted, returning `true`. -/
def try_insert_package (s : St) (package : Package) (path : List Package) :
    Except String (St × Bool) :=
  match findPkg s.packages package.name with
  | some existing =>
      if s.phase = Phase.nameAndVersionIntersection ∧ existing.1.version ≠ package.version then
        .error (multipleVersionsMsg package.name s.spec.src existing.1.version
          package.version path)
      else
        .ok (s, false)
  | none =>
      .ok ({ s with packages := (package.name, package, path) :: s.packages }, true)

/-- Modelled from the spec: `cargo_lock::Dependency::matches` lives in the
external `cargo_lock` crate, not in this repository; per the spec a
dependency edge is "a matcher (name plus version/source constraint)" and a
package satisfies it when the names are equal and each present constraint
equals the package's corresponding field. -/
def depMatches (d : Dep) (p : Package) : Bool :=
  d.name == p.name &&
    (match d.version with | some v => v == p.version | none => true) &&
    (match d.source with | some s => p.source == some s | none => true)

/-- Resolution of a dependency edge against the lockfile, mirroring the
`find` over `lockfile.packages` in `add_all_dependencies_recursive`
(first match in stored order). -/
def resolveDep (lf : List Package) (d : Dep) : Option Package :=
  lf.find? (fun p => depMatches d p)

/-- One layer of the recursive dependency walk, mirroring the loop body of
`State::add_all_dependencies_recursive`: excluded or unresolvable edges are
skipped; a resolved dependency is inserted, and its own edges are walked
(through `recur`) only when the insertion was new. -/
def walkStep (recur : St → List Dep → List Package → Res St) :
    St → List Dep → List Package → Res St
  | s, [], _ => Res.ok s
  | s, dep :: rest, path =>
    if dep.name ∈ s.spec.exclude_pkgs then walkStep recur s rest path
    else
      match resolveDep s.lockfile dep with
      | none => walkStep recur s rest path
      | some dep_pkg =>
        match try_insert_package s dep_pkg (path ++ [dep_pkg]) with
        | .error e => Res.err e
        | .ok (s1, inserted) =>
          if inserted then
            match recur s1 dep_pkg.dependencies (path ++ [dep_pkg]) with
            | Res.ok s2 => walkStep recur s2 rest path
            | r => r
          else walkStep recur s1 rest path

/-- The fuel-indexed dependency walk: `walkDeps fuel s deps path` runs
`State::add_all_dependencies_recursive` on the edge list `deps`, where `fuel`
bounds the depth of descents into newly inserted packages. -/
def walkDeps : Nat → St → List Dep → List Package → Res St
  | 0, _, _, _ => Res.out
  | fuel + 1, s, deps, path => walkStep (walkDeps fuel) s deps path

/-- Hash matching against the checksum or the source-precise field,
mirroring `package_matches_hash` in src/main.rs. -/
def package_matches_hash (pkg : Package) (hash : String) : Bool :=
  (match pkg.checksum with | some cksum => cksum == hash | none => false) ||
  (match pkg.source with
   | some src => (match src.precise with | some pr => pr == hash | none => false)
   | none => false)

/-- The root-candidate filter of `State::add_packages_in_dependency_tree`:
not excluded, and matching the name constraint and hash constraint when
set. -/
def seedMatches (spec : Spec) (p : Package) : Bool :=
  decide (p.name ∉ spec.exclude_pkgs) &&
    (match spec.pkg_name with | some n => p.name == n | none => true) &&
    (match spec.pkg_hash with | some h => package_matches_hash p h | none => true)

/-- Rust `{:?}` rendering of an `Option<String>`, as interpolated by the
root-not-found message. -/
def optDebug : Option String → String
  | some s => "Some(\"" ++ s ++ "\")"
  | none => "None"

/-- The root-not-found error message of `add_packages_in_dependency_tree`,
mirroring its `format!` (with the Rust `{:?}` rendering of the options). -/
def rootNotFoundMsg (spec : Spec) : String :=
  "No package named " ++ (optDebug spec.pkg_name ++ (" with hash " ++
    (optDebug spec.pkg_hash ++ (" found in lockfile " ++ spec.src))))

/-- Rooted universe construction, mirroring
`State::add_packages_in_dependency_tree`: the first package in stored order
passing the filters seeds the universe (path = [package]) and its dependency
tree is walked; if no package passes, the build fails. -/
def add_packages_in_dependency_tree (fuel : Nat) (s : St) : Res St :=
  match s.lockfile.find? (fun p => seedMatches s.spec p) with
  | some package =>
      walkDeps fuel
        { s with packages := (package.name, package, [package]) :: s.packages }
        package.dependencies [package]
  | none => Res.err (rootNotFoundMsg s.spec)

/-- The insertion loop of `State::add_all_packages_in_lockfile` over an
already-filtered package list; each package is inserted with the singleton
path consisting of itself. -/
def addAllLoop : St → List Package → Res St
  | s, [] => Res.ok s
  | s, p :: rest =>
    match try_insert_package s p [p] with
    | .error e => Res.err e
    | .ok (s1, _) => addAllLoop s1 rest

/-- Unrooted universe construction, mirroring
`State::add_all_packages_in_lockfile`: every non-excluded package of the
lockfile, in stored order, is inserted. -/
def add_all_packages_in_lockfile (s : St) : Res St :=
  addAllLoop s (s.lockfile.filter (fun p => decide (p.name ∉ s.spec.exclude_pkgs)))

/-- Universe construction dispatch, mirroring `State::add_packages`. -/
def add_packages (fuel : Nat) (s : St) : Res St :=
  if s.spec.pkg_name.isSome || s.spec.pkg_hash.isSome then
    add_packages_in_dependency_tree fuel s
  else
    add_all_packages_in_lockfile s

/-- One pass of `Program::add_packages_and_calculate_intesection`: build both
universes (side A first) and intersect their name sets; the intersection is
observed as the ascending list a `BTreeSet<Name>` iterates in. -/
def addPackagesAndCalcIntersection (fuel : Nat) (sa sb : St) :
    Res (St × St × List String) :=
  match add_packages fuel sa with
  | Res.err e => Res.err e
  | Res.out => Res.out
  | Res.ok sa2 =>
    match add_packages fuel sb with
    | Res.err e => Res.err e
    | Res.out => Res.out
    | Res.ok sb2 => Res.ok (sa2, sb2, interList sa2.packages sb2.packages)

/-- The narrowing of a Spec between the two passes of `Program::run`: every
name of the first-pass universe outside the first-pass intersection is added
to the exclusion set; nothing else changes. -/
def narrowSpec (spec : Spec) (universeNames : Finset String) (i0 : List String) : Spec :=
  { spec with
      exclude_pkgs := spec.exclude_pkgs ∪ universeNames.filter (fun n => n ∉ i0) }

/-- The state a side enters the verification pass with, mirroring the
mutations in `Program::run`: narrowed Spec, strict phase, cleared universe,
same lockfile. -/
def pass2St (s : St) (i0 : List String) : St :=
  { s with
      spec := narrowSpec s.spec (pkgNames s.packages) i0,
      phase := Phase.nameAndVersionIntersection,
      packages := [] }

/-- One line of diff output: a SAME record (name, version) or a DIFFERENT
record (name, version A, version B, rendered path A, rendered path B). -/
inductive Line where
  | same : String → String → Line
  | different : String → String → String → String → String → Line
deriving DecidableEq, Repr

/-- The reporting loop at the end of `Program::run` over the (ascending)
intersection list: equal versions yield a SAME line only under the verbose
flag; different versions always yield a DIFFERENT record and clear the
aggregate flag. -/
def reportLines (verbose : Bool) (ua ub : PkgMap) : List String → Bool × List Line
  | [] => (true, [])
  | n :: rest =>
    let r := reportLines verbose ua ub rest
    match findPkg ua n, findPkg ub n with
    | some pa, some pb =>
      if pa.1.version = pb.1.version then
        (r.1, (if verbose then [Line.same n pa.1.version] else []) ++ r.2)
      else
        (false,
          Line.different n pa.1.version pb.1.version (path_to_str pa.2) (path_to_str pb.2)
            :: r.2)
    | _, _ => r

/-- The verification pass and report of `Program::run`, starting from the two
narrowed, cleared states: rebuild both universes, intersect, and report over
the intersection in ascending name order. -/
def secondPhase (fuel : Nat) (verbose : Bool) (a2 b2 : St) : Res (List Line × Bool) :=
  match addPackagesAndCalcIntersection fuel a2 b2 with
  | Res.err e => Res.err e
  | Res.out => Res.out
  | Res.ok (a3, b3, i) =>
    let r := reportLines verbose a3.packages b3.packages i
    Res.ok (r.2, r.1)

/-- The initial state of a side, as built by `State::new` from a parsed
lockfile: empty universe, lenient phase. -/
def initSt (spec : Spec) (lf : List Package) : St :=
  { spec := spec, lockfile := lf, packages := [], phase := Phase.nameIntersection }

/-- The two-pass pipeline of `Program::run`, returning the emitted diff lines
together with the aggregate all-same flag (errors abort before any lines
exist). -/
def runPasses (fuel : Nat) (verbose : Bool) (lfA lfB : List Package)
    (specA specB : Spec) : Res (List Line × Bool) :=
  match addPackagesAndCalcIntersection fuel (initSt specA lfA) (initSt specB lfB) with
  | Res.err e => Res.err e
  | Res.out => Res.out
  | Res.ok (a1, b1, i0) => secondPhase fuel verbose (pass2St a1 i0) (pass2St b1 i0)

/-- The process-level result of `Program::run`: an error aborts; a completed
comparison succeeds exactly when the aggregate flag is set, and otherwise
fails with the summary error message. -/
def run (fuel : Nat) (verbose : Bool) (lfA lfB : List Package)
    (specA specB : Spec) : Res (List Line) :=
  match runPasses fuel verbose lfA lfB specA specB with
  | Res.err e => Res.err e
  | Res.out => Res.out
  | Res.ok (lines, allOk) =>
    if allOk then Res.ok lines else Res.err "Some packages have different versions"

/-- Reachability through resolvable, non-excluded dependency edges: the
transitive-reflexive closure the rooted walk is meant to cover. -/
inductive Reaches (lf : List Package) (excl : Finset String) : Package → Package → Prop
  | refl (p : Package) : Reaches lf excl p p
  | step {p q r : Package} {d : Dep} : d ∈ p.dependencies → d.name ∉ excl →
      resolveDep lf d = some q → Reaches lf excl q r → Reaches lf excl p r

/-- Substring containment on the underlying character lists, used to state
that an error message reports a given field. -/
def containsSub (hay needle : String) : Prop :=
  ∃ a b, hay.data = a ++ needle.data ++ b

/-- Example package with a resolvable edge to b, an edge to the excluded name
e, and an unresolvable edge z. -/
def exA : Package :=
  ⟨"a", "1", none, none, [⟨"b", none, none⟩, ⟨"e", none, none⟩, ⟨"z", none, none⟩]⟩

/-- Example package b depending on c. -/
def exB : Package := ⟨"b", "1", none, none, [⟨"c", none, none⟩]⟩

/-- Example leaf package c. -/
def exC : Package := ⟨"c", "1", none, none, []⟩

/-- Example package d, unreachable from a. -/
def exD : Package := ⟨"d", "1", none, none, []⟩

/-- Example package e, an excluded name. -/
def exE : Package := ⟨"e", "1", none, none, []⟩

/-- Example lockfile for the rooted walk. -/
def exRootLf : List Package := [exA, exB, exC, exD, exE]

/-- Example Spec rooting at a and excluding e. -/
def exRootSpec : Spec := ⟨"A", some "a", none, {"e"}⟩

/-- The state the rooted walk of `exRootLf` under `exRootSpec` ends in. -/
def exRootOut : St :=
  ⟨exRootSpec, exRootLf,
    [("c", exC, [exA, exB, exC]), ("b", exB, [exA, exB]), ("a", exA, [exA])],
    Phase.nameIntersection⟩

/-- Example package a depending on b, shared by the two comparison sides. -/
def exWa : Package := ⟨"a", "1", none, none, [⟨"b", none, none⟩]⟩

/-- Example package b at version 1 (side A). -/
def exWb1 : Package := ⟨"b", "1", none, none, []⟩

/-- Example package b at version 2 (side B). -/
def exWb2 : Package := ⟨"b", "2", none, none, []⟩

/-- Example package c, only present on side B. -/
def exWc : Package := ⟨"c", "1", none, none, []⟩

/-- Example package d. -/
def exWd : Package := ⟨"d", "1", none, none, []⟩

/-- Unconstrained example Spec for side A. -/
def exSpecA : Spec := ⟨"A", none, none, ∅⟩

/-- Unconstrained example Spec for side B. -/
def exSpecB : Spec := ⟨"B", none, none, ∅⟩

/-- Example lockfile A of the version-mismatch scenario. -/
def exLfA : List Package := [exWa, exWb1]

/-- Example lockfile B of the version-mismatch scenario. -/
def exLfB : List Package := [exWa, exWb2, exWc]

/-- Side A state after the discovery pass of the mismatch scenario. -/
def exA1 : St :=
  ⟨exSpecA, exLfA, [("b", exWb1, [exWb1]), ("a", exWa, [exWa])], Phase.nameIntersection⟩

/-- Side B state after the discovery pass of the mismatch scenario. -/
def exB1 : St :=
  ⟨exSpecB, exLfB, [("c", exWc, [exWc]), ("b", exWb2, [exWb2]), ("a", exWa, [exWa])],
    Phase.nameIntersection⟩

/-- Side A state after the verification pass of the mismatch scenario. -/
def exA2 : St :=
  ⟨(pass2St exA1 ["a", "b"]).spec, exLfA, [("b", exWb1, [exWb1]), ("a", exWa, [exWa])],
    Phase.nameAndVersionIntersection⟩

/-- Side B state after the verification pass of the mismatch scenario. -/
def exB2 : St :=
  ⟨(pass2St exB1 ["a", "b"]).spec, exLfB, [("b", exWb2, [exWb2]), ("a", exWa, [exWa])],
    Phase.nameAndVersionIntersection⟩

/-- Example root package for the pruned-root scenario. -/
def exRootA : Package := ⟨"a", "1", none, none, []⟩

/-- Example package of the other side of the pruned-root scenario. -/
def exRootB : Package := ⟨"b", "1", none, none, []⟩

/-- Spec rooting side A at a by name. -/
def exSpecRootA : Spec := ⟨"A", some "a", none, ∅⟩

/-- Side A state after discovery in the pruned-root scenario. -/
def exA1r : St :=
  ⟨exSpecRootA, [exRootA], [("a", exRootA, [exRootA])], Phase.nameIntersection⟩

/-- Side B state after discovery in the pruned-root scenario. -/
def exB1r : St :=
  ⟨exSpecB, [exRootB], [("b", exRootB, [exRootB])], Phase.nameIntersection⟩

/-- A strict-phase state already binding p at version 1. -/
def exInsSt : St :=
  ⟨⟨"L", none, none, ∅⟩, [], [("p", ⟨"p", "1", none, none, []⟩, [])],
    Phase.nameAndVersionIntersection⟩

/-- The package p at the conflicting version 2. -/
def exInsP : Package := ⟨"p", "2", none, none, []⟩

/-- Example package matching the root name but not the root hash. -/
def exM1 : Package := ⟨"r", "1", some "g", none, []⟩

/-- Example package matching the root hash but not the root name. -/
def exM2 : Package := ⟨"s", "1", some "h", none, []⟩

/-- Example package matching both root constraints. -/
def exM3 : Package := ⟨"r", "2", some "h", none, []⟩

/-- Spec with both a root name and a root hash. -/
def exSelSpec : Spec := ⟨"A", some "r", some "h", ∅⟩

/-- State whose lockfile holds a full-match candidate after partial ones. -/
def exSelSt : St := ⟨exSelSpec, [exM1, exM2, exM3], [], Phase.nameIntersection⟩

/-- State whose lockfile holds only partial-match candidates. -/
def exNoneSt : St := ⟨exSelSpec, [exM1, exM2], [], Phase.nameIntersection⟩

/-- Spec excluding c with no root constraint. -/
def exExclSpec : Spec := ⟨"B", none, none, {"c"}⟩

/-- The universe built from `exLfB` under `exExclSpec`. -/
def exExclOut : St :=
  ⟨exExclSpec, exLfB, [("b", exWb2, [exWb2]), ("a", exWa, [exWa])], Phase.nameIntersection⟩

/-- Example package u of a two-cycle. -/
def exCycU : Package := ⟨"u", "1", none, none, [⟨"v", none, none⟩]⟩

/-- Example package v of a two-cycle. -/
def exCycV : Package := ⟨"v", "1", none, none, [⟨"u", none, none⟩]⟩

/-- Rooted state over the cyclic lockfile. -/
def exCycSt : St := ⟨⟨"A", some "u", none, ∅⟩, [exCycU, exCycV], [], Phase.nameIntersection⟩

/-- Package n1 carrying the shared hash. -/
def exHashP1 : Package := ⟨"n1", "1", some "h", none, []⟩

/-- Package n2 carrying the same hash under a different name. -/
def exHashP2 : Package := ⟨"n2", "1", some "h", none, []⟩

/-- The other side's package n2 (no hash). -/
def exHashQ2 : Package := ⟨"n2", "1", none, none, []⟩

/-- Spec selecting side A's root by hash only. -/
def exHashSpecA : Spec := ⟨"A", none, some "h", ∅⟩

theorem mem_pkgNames_iff (u : PkgMap) (n : String) :
    n ∈ pkgNames u ↔ ∃ v, findPkg u n = some v := by
  induction u with
  | nil => simp [pkgNames, findPkg]
  | cons e u ih =>
    by_cases h : e.1 = n
    · subst h
      simp [pkgNames, findPkg]
    · simp [pkgNames, findPkg, h, ih, Ne.symm h]

theorem findPkg_eq_none_iff (u : PkgMap) (n : String) :
    findPkg u n = none ↔ n ∉ pkgNames u := by
  rw [mem_pkgNames_iff]
  cases h : findPkg u n <;> simp [h]

theorem mem_lockfileNames (lf : List Package) (n : String) :
    n ∈ lockfileNames lf ↔ ∃ p ∈ lf, p.name = n := by
  induction lf with
  | nil => simp [lockfileNames]
  | cons p ps ih => simp [lockfileNames, ih, or_and_right, exists_or, eq_comm]

theorem resolveDep_mem {lf : List Package} {d : Dep} {q : Package}
    (h : resolveDep lf d = some q) : q ∈ lf :=
  List.mem_of_find?_eq_some h

theorem resolveDep_name {lf : List Package} {d : Dep} {q : Package}
    (h : resolveDep lf d = some q) : q.name = d.name := by
  have hm := List.find?_some h
  simp only [depMatches, Bool.and_eq_true, beq_iff_eq] at hm
  exact hm.1.1.symm

theorem Reaches.mem_or_eq {lf : List Package} {excl : Finset String} {p q : Package}
    (h : Reaches lf excl p q) : q = p ∨ q ∈ lf := by
  induction h with
  | refl p => exact Or.inl rfl
  | step hd hex hres h ih =>
    rcases ih with h1 | h1
    · subst h1
      exact Or.inr (resolveDep_mem hres)
    · exact Or.inr h1

theorem Reaches.name_not_excl {lf : List Package} {excl : Finset String} {p q : Package}
    (h : Reaches lf excl p q) (hp : p.name ∉ excl) : q.name ∉ excl := by
  induction h with
  | refl p => exact hp
  | step hd hex hres h ih =>
    refine ih ?_
    rw [resolveDep_name hres]
    exact hex

theorem Reaches.trans_step {lf : List Package} {excl : Finset String} {p q r : Package}
    (h1 : Reaches lf excl p q) (h2 : Reaches lf excl q r) : Reaches lf excl p r := by
  induction h1 with
  | refl p => exact h2
  | step hd hex hres h ih => exact Reaches.step hd hex hres (ih h2)

theorem findPkg_cons_ne {u : PkgMap} {e : String × Package × List Package} {n : String}
    (h : e.1 ≠ n) : findPkg (e :: u) n = findPkg u n := by
  simp [findPkg, h]

theorem findPkg_cons_self {u : PkgMap} {e : String × Package × List Package} :
    findPkg (e :: u) e.1 = some e.2 := by
  simp [findPkg]

/-- Fields of the state other than the universe are preserved by a walk. -/
def framePost (s s2 : St) : Prop :=
  s2.spec = s.spec ∧ s2.lockfile = s.lockfile ∧ s2.phase = s.phase

/-- Existing universe bindings are preserved by a walk. -/
def monoPost (u u2 : PkgMap) : Prop :=
  ∀ n v, findPkg u n = some v → findPkg u2 n = some v

/-- Every new binding of a walk of the edge list `deps` is a package reached
from the resolved target of a non-excluded edge of `deps`. -/
def soundPost (lf : List Package) (excl : Finset String) (u : PkgMap) (deps : List Dep)
    (u2 : PkgMap) : Prop :=
  ∀ n p pa, findPkg u2 n = some (p, pa) →
    findPkg u n = some (p, pa) ∨
      (p.name = n ∧ ∃ d ∈ deps, d.name ∉ excl ∧
        ∃ q, resolveDep lf d = some q ∧ Reaches lf excl q p)

/-- After a walk of `deps`, every non-excluded resolvable edge of `deps` has
its target name bound. -/
def coveredPost (lf : List Package) (excl : Finset String) (deps : List Dep)
    (u2 : PkgMap) : Prop :=
  ∀ d ∈ deps, d.name ∉ excl → ∀ q, resolveDep lf d = some q → q.name ∈ pkgNames u2

/-- A package all of whose non-excluded resolvable edges point into the name
set `u`. -/
def closedAt (lf : List Package) (excl : Finset String) (u : Finset String)
    (p : Package) : Prop :=
  ∀ d ∈ p.dependencies, d.name ∉ excl → ∀ q, resolveDep lf d = some q → q.name ∈ u

/-- Every new binding of a walk is closed in the final universe. -/
def closedPost (lf : List Package) (excl : Finset String) (u u2 : PkgMap) : Prop :=
  ∀ n p pa, findPkg u2 n = some (p, pa) →
    findPkg u n = some (p, pa) ∨ closedAt lf excl (pkgNames u2) p

/-- The full postcondition of a walk layer. -/
def GoodWalk (f : St → List Dep → List Package → Res St) : Prop :=
  ∀ s deps path s2, f s deps path = Res.ok s2 →
    framePost s s2 ∧ monoPost s.packages s2.packages ∧
      soundPost s.lockfile s.spec.exclude_pkgs s.packages deps s2.packages ∧
      coveredPost s.lockfile s.spec.exclude_pkgs deps s2.packages ∧
      closedPost s.lockfile s.spec.exclude_pkgs s.packages s2.packages

theorem monoPost_names {u u2 : PkgMap} (h : monoPost u u2) :
    pkgNames u ⊆ pkgNames u2 := by
  intro n hn
  rw [mem_pkgNames_iff] at hn ⊢
  obtain ⟨v, hv⟩ := hn
  exact ⟨v, h n v hv⟩

theorem findPkg_cons_of_absent {u : PkgMap} {k : String} {w : Package × List Package}
    {n : String} {v : Package × List Package} (habs : findPkg u k = none)
    (h : findPkg u n = some v) : findPkg ((k, w) :: u) n = some v := by
  have hne : k ≠ n := by
    intro he
    rw [he] at habs
    rw [habs] at h
    exact Option.noConfusion h
  simpa [findPkg, hne] using h

theorem closedAt_mono {lf : List Package} {excl : Finset String}
    {u u' : Finset String} {p : Package} (hu : u ⊆ u')
    (h : closedAt lf excl u p) : closedAt lf excl u' p :=
  fun d hd hex q hq => hu (h d hd hex q hq)

theorem try_insert_ok_true {s : St} {p : Package} {path : List Package} {s1 : St}
    (h : try_insert_package s p path = .ok (s1, true)) :
    findPkg s.packages p.name = none ∧
      s1 = { s with packages := (p.name, p, path) :: s.packages } := by
  unfold try_insert_package at h
  cases hf : findPkg s.packages p.name with
  | some ex =>
    simp only [hf] at h
    by_cases hc : s.phase = Phase.nameAndVersionIntersection ∧ ex.1.version ≠ p.version
    · rw [if_pos hc] at h
      exact Except.noConfusion h
    · rw [if_neg hc] at h
      simp at h
  | none =>
    simp only [hf] at h
    simp only [Except.ok.injEq, Prod.mk.injEq] at h
    exact ⟨rfl, h.1.symm⟩

theorem try_insert_ok_false {s : St} {p : Package} {path : List Package} {s1 : St}
    (h : try_insert_package s p path = .ok (s1, false)) :
    s1 = s ∧ ∃ v, findPkg s.packages p.name = some v := by
  unfold try_insert_package at h
  cases hf : findPkg s.packages p.name with
  | some ex =>
    simp only [hf] at h
    by_cases hc : s.phase = Phase.nameAndVersionIntersection ∧ ex.1.version ≠ p.version
    · rw [if_pos hc] at h
      exact Except.noConfusion h
    · rw [if_neg hc] at h
      simp only [Except.ok.injEq, Prod.mk.injEq] at h
      exact ⟨h.1.symm, ex, rfl⟩
  | none =>
    simp only [hf] at h
    simp at h

theorem try_insert_err {s : St} {p : Package} {path : List Package} {e : String}
    (h : try_insert_package s p path = .error e) :
    s.phase = Phase.nameAndVersionIntersection ∧
      ∃ v, findPkg s.packages p.name = some v ∧ v.1.version ≠ p.version ∧
        e = multipleVersionsMsg p.name s.spec.src v.1.version p.version path := by
  unfold try_insert_package at h
  cases hf : findPkg s.packages p.name with
  | some ex =>
    simp only [hf] at h
    by_cases hc : s.phase = Phase.nameAndVersionIntersection ∧ ex.1.version ≠ p.version
    · rw [if_pos hc] at h
      simp only [Except.error.injEq] at h
      exact ⟨hc.1, ex, rfl, hc.2, h.symm⟩
    · rw [if_neg hc] at h
      exact Except.noConfusion h
  | none =>
    simp only [hf] at h
    exact Except.noConfusion h

theorem goodWalk_step {f : St → List Dep → List Package → Res St} (hf : GoodWalk f) :
    GoodWalk (walkStep f) := by
  intro s deps path s2 h
  induction deps generalizing s path s2 with
  | nil =>
    simp only [walkStep, Res.ok.injEq] at h
    subst h
    exact ⟨⟨rfl, rfl, rfl⟩, fun n v hv => hv, fun n p pa hp => Or.inl hp,
      fun d hd => absurd hd (List.not_mem_nil d), fun n p pa hp => Or.inl hp⟩
  | cons dep rest ih =>
    simp only [walkStep] at h
    by_cases hex : dep.name ∈ s.spec.exclude_pkgs
    · rw [if_pos hex] at h
      obtain ⟨hF, hM, hS, hC, hCl⟩ := ih s path s2 h
      refine ⟨hF, hM, ?_, ?_, hCl⟩
      · intro n p pa hp
        rcases hS n p pa hp with h1 | ⟨hn, d, hd, hrest⟩
        · exact Or.inl h1
        · exact Or.inr ⟨hn, d, List.mem_cons_of_mem _ hd, hrest⟩
      · intro d hd hdex q hq
        rcases List.mem_cons.mp hd with rfl | hd'
        · exact absurd hex hdex
        · exact hC d hd' hdex q hq
    · rw [if_neg hex] at h
      cases hres : resolveDep s.lockfile dep with
      | none =>
        rw [hres] at h
        obtain ⟨hF, hM, hS, hC, hCl⟩ := ih s path s2 h
        refine ⟨hF, hM, ?_, ?_, hCl⟩
        · intro n p pa hp
          rcases hS n p pa hp with h1 | ⟨hn, d, hd, hrest⟩
          · exact Or.inl h1
          · exact Or.inr ⟨hn, d, List.mem_cons_of_mem _ hd, hrest⟩
        · intro d hd hdex q hq
          rcases List.mem_cons.mp hd with rfl | hd'
          · rw [hres] at hq
            exact Option.noConfusion hq
          · exact hC d hd' hdex q hq
      | some q =>
        rw [hres] at h
        cases hins : try_insert_package s q (path ++ [q]) with
        | error e =>
          simp only [hins] at h
          exact Res.noConfusion h
        | ok pr =>
          obtain ⟨s1, inserted⟩ := pr
          simp only [hins] at h
          cases inserted with
          | false =>
            simp only [Bool.false_eq_true, if_false] at h
            obtain ⟨hs1, v, hv⟩ := try_insert_ok_false hins
            rw [hs1] at h
            obtain ⟨hF, hM, hS, hC, hCl⟩ := ih s path s2 h
            refine ⟨hF, hM, ?_, ?_, hCl⟩
            · intro n p pa hp
              rcases hS n p pa hp with h1 | ⟨hn, d, hd, hrest⟩
              · exact Or.inl h1
              · exact Or.inr ⟨hn, d, List.mem_cons_of_mem _ hd, hrest⟩
            · intro d hd hdex q0 hq0
              rcases List.mem_cons.mp hd with rfl | hd'
              · rw [hres] at hq0
                obtain rfl : q = q0 := Option.some.inj hq0
                have : q.name ∈ pkgNames s.packages :=
                  (mem_pkgNames_iff _ _).mpr ⟨v, hv⟩
                exact monoPost_names hM this
              · exact hC d hd' hdex q0 hq0
          | true =>
            simp only [if_true] at h
            obtain ⟨habs, hs1⟩ := try_insert_ok_true hins
            cases hrec : f s1 q.dependencies (path ++ [q]) with
            | err e =>
              simp only [hrec] at h
              exact Res.noConfusion h
            | out =>
              simp only [hrec] at h
              exact Res.noConfusion h
            | ok s2' =>
              simp only [hrec] at h
              have hs1spec : s1.spec = s.spec := by rw [hs1]
              have hs1lock : s1.lockfile = s.lockfile := by rw [hs1]
              have hs1phase : s1.phase = s.phase := by rw [hs1]
              have hs1pkgs : s1.packages = (q.name, q, path ++ [q]) :: s.packages := by
                rw [hs1]
              obtain ⟨hF1, hM1, hS1, hC1, hCl1⟩ := hf s1 q.dependencies (path ++ [q]) s2' hrec
              obtain ⟨hF2, hM2, hS2, hC2, hCl2⟩ := ih s2' path s2 h
              rw [hs1spec] at hS1 hC1 hCl1
              rw [hs1lock] at hS1 hC1 hCl1
              rw [hs1pkgs] at hS1 hCl1 hM1
              have hspec2 : s2'.spec = s.spec := hF1.1.trans hs1spec
              have hlock2 : s2'.lockfile = s.lockfile := hF1.2.1.trans hs1lock
              rw [hspec2, hlock2] at hS2 hC2 hCl2
              have hname_mono2 := monoPost_names hM2
              refine ⟨?_, ?_, ?_, ?_, ?_⟩
              · exact ⟨hF2.1.trans hspec2, hF2.2.1.trans hlock2,
                  hF2.2.2.trans (hF1.2.2.trans hs1phase)⟩
              · intro n v hv
                exact hM2 n v (hM1 n v (findPkg_cons_of_absent habs hv))
              · intro n p pa hp
                rcases hS2 n p pa hp with h1 | ⟨hn, d, hd, hdex, q', hq', hreach⟩
                · rcases hS1 n p pa h1 with h2 | ⟨hn, d', hd', hdex', q', hq', hreach⟩
                  · by_cases hnq : q.name = n
                    · subst hnq
                      rw [findPkg_cons_self] at h2
                      obtain ⟨rfl, rfl⟩ : q = p ∧ path ++ [q] = pa := by
                        have := Option.some.inj h2
                        exact ⟨congrArg Prod.fst this, congrArg Prod.snd this⟩
                      exact Or.inr ⟨rfl, dep, List.mem_cons_self _ _, hex, q, hres,
                        Reaches.refl q⟩
                    · rw [findPkg_cons_ne hnq] at h2
                      exact Or.inl h2
                  · exact Or.inr ⟨hn, dep, List.mem_cons_self _ _, hex, q, hres,
                      Reaches.step hd' hdex' hq' hreach⟩
                · exact Or.inr ⟨hn, d, List.mem_cons_of_mem _ hd, hdex, q', hq', hreach⟩
              · intro d hd hdex q0 hq0
                rcases List.mem_cons.mp hd with rfl | hd'
                · rw [hres] at hq0
                  obtain rfl : q = q0 := Option.some.inj hq0
                  have h1 : q.name ∈ pkgNames ((q.name, q, path ++ [q]) :: s.packages) := by
                    simp [pkgNames]
                  exact hname_mono2 (monoPost_names hM1 h1)
                · exact hC2 d hd' hdex q0 hq0
              · intro n p pa hp
                rcases hCl2 n p pa hp with h1 | h1
                · rcases hCl1 n p pa h1 with h2 | h2
                  · by_cases hnq : q.name = n
                    · subst hnq
                      rw [findPkg_cons_self] at h2
                      obtain rfl : q = p := congrArg Prod.fst (Option.some.inj h2)
                      refine Or.inr ?_
                      intro d' hd' hdex' q' hq'
                      exact hname_mono2 (hC1 d' hd' hdex' q' hq')
                    · rw [findPkg_cons_ne hnq] at h2
                      exact Or.inl h2
                  · exact Or.inr (closedAt_mono hname_mono2 h2)
                · exact Or.inr h1

theorem goodWalk_walkDeps : ∀ fuel, GoodWalk (walkDeps fuel) := by
  intro fuel
  induction fuel with
  | zero =>
    intro s deps path s2 h
    simp only [walkDeps] at h
    exact Res.noConfusion h
  | succ fuel ih => exact goodWalk_step ih

/-- The number of lockfile names not yet bound in the universe: the measure
the walk's descents strictly decrease. -/
def remaining (s : St) : Nat := (lockfileNames s.lockfile \ pkgNames s.packages).card

theorem remaining_le_of_mono {s s2 : St} (hl : s2.lockfile = s.lockfile)
    (hm : pkgNames s.packages ⊆ pkgNames s2.packages) : remaining s2 ≤ remaining s := by
  unfold remaining
  rw [hl]
  exact Finset.card_le_card (Finset.sdiff_subset_sdiff (le_refl _) hm)

theorem remaining_lt_of_insert {s : St} {q : Package} {pa : List Package}
    (hq : q ∈ s.lockfile) (habs : findPkg s.packages q.name = none) :
    remaining { s with packages := (q.name, q, pa) :: s.packages } < remaining s := by
  unfold remaining
  have hmem : q.name ∈ lockfileNames s.lockfile \ pkgNames s.packages := by
    rw [Finset.mem_sdiff]
    refine ⟨?_, (findPkg_eq_none_iff _ _).mp habs⟩
    rw [mem_lockfileNames]
    exact ⟨q, hq, rfl⟩
  have heq : lockfileNames s.lockfile \ pkgNames ((q.name, q, pa) :: s.packages) =
      (lockfileNames s.lockfile \ pkgNames s.packages).erase q.name := by
    ext m
    simp only [pkgNames, Finset.mem_sdiff, Finset.mem_insert, Finset.mem_erase]
    tauto
  show (lockfileNames s.lockfile \ pkgNames ((q.name, q, pa) :: s.packages)).card < _
  rw [heq]
  exact Finset.card_erase_lt_of_mem hmem

theorem walkStep_no_out {f : St → List Dep → List Package → Res St} {k : Nat}
    (hf : GoodWalk f)
    (hno : ∀ s deps path, remaining s < k → f s deps path ≠ Res.out) :
    ∀ deps s path, remaining s < k + 1 → walkStep f s deps path ≠ Res.out := by
  intro deps
  induction deps with
  | nil =>
    intro s path hr h
    simp [walkStep] at h
  | cons dep rest ih =>
    intro s path hr h
    simp only [walkStep] at h
    by_cases hex : dep.name ∈ s.spec.exclude_pkgs
    · rw [if_pos hex] at h
      exact ih s path hr h
    · rw [if_neg hex] at h
      cases hres : resolveDep s.lockfile dep with
      | none =>
        rw [hres] at h
        exact ih s path hr h
      | some q =>
        rw [hres] at h
        cases hins : try_insert_package s q (path ++ [q]) with
        | error e =>
          simp only [hins] at h
          exact Res.noConfusion h
        | ok pr =>
          obtain ⟨s1, inserted⟩ := pr
          simp only [hins] at h
          cases inserted with
          | false =>
            simp only [Bool.false_eq_true, if_false] at h
            obtain ⟨hs1, v, hv⟩ := try_insert_ok_false hins
            rw [hs1] at h
            exact ih s path hr h
          | true =>
            simp only [if_true] at h
            obtain ⟨habs, hs1⟩ := try_insert_ok_true hins
            have hql : q ∈ s.lockfile := resolveDep_mem hres
            have hlt : remaining s1 < remaining s := by
              rw [hs1]
              exact remaining_lt_of_insert hql habs
            have hs1k : remaining s1 < k := by omega
            cases hrec : f s1 q.dependencies (path ++ [q]) with
            | err e =>
              simp only [hrec] at h
              exact Res.noConfusion h
            | out => exact hno s1 _ _ hs1k hrec
            | ok s2' =>
              simp only [hrec] at h
              have H1 := hf s1 q.dependencies (path ++ [q]) s2' hrec
              have hr2 : remaining s2' < k + 1 := by
                have hle : remaining s2' ≤ remaining s1 :=
                  remaining_le_of_mono H1.1.2.1 (monoPost_names H1.2.1)
                omega
              exact ih s2' path hr2 h

theorem walkDeps_no_out : ∀ fuel s deps path, remaining s < fuel →
    walkDeps fuel s deps path ≠ Res.out := by
  intro fuel
  induction fuel with
  | zero =>
    intro s deps path hr
    exact absurd hr (Nat.not_lt_zero _)
  | succ fuel ih =>
    intro s deps path hr
    exact walkStep_no_out (goodWalk_walkDeps fuel) (fun s' d p hr' => ih s' d p hr')
      deps s path hr

theorem addAllLoop_spec : ∀ ps s s2, addAllLoop s ps = Res.ok s2 →
    framePost s s2 ∧ monoPost s.packages s2.packages ∧
      (∀ n p pa, findPkg s2.packages n = some (p, pa) →
        findPkg s.packages n = some (p, pa) ∨ (p ∈ ps ∧ p.name = n ∧ pa = [p])) ∧
      (∀ p ∈ ps, p.name ∈ pkgNames s2.packages) := by
  intro ps
  induction ps with
  | nil =>
    intro s s2 h
    simp only [addAllLoop, Res.ok.injEq] at h
    subst h
    exact ⟨⟨rfl, rfl, rfl⟩, fun n v hv => hv, fun n p pa hp => Or.inl hp, by simp⟩
  | cons p rest ih =>
    intro s s2 h
    simp only [addAllLoop] at h
    cases hins : try_insert_package s p [p] with
    | error e =>
      simp only [hins] at h
      exact Res.noConfusion h
    | ok pr =>
      obtain ⟨s1, inserted⟩ := pr
      simp only [hins] at h
      cases inserted with
      | false =>
        obtain ⟨hs1, v, hv⟩ := try_insert_ok_false hins
        rw [hs1] at h
        obtain ⟨hF, hM, hS, hAll⟩ := ih s s2 h
        refine ⟨hF, hM, ?_, ?_⟩
        · intro n p' pa hp'
          rcases hS n p' pa hp' with h1 | ⟨h1, h2, h3⟩
          · exact Or.inl h1
          · exact Or.inr ⟨List.mem_cons_of_mem _ h1, h2, h3⟩
        · intro p' hp'
          rcases List.mem_cons.mp hp' with rfl | hp''
          · exact monoPost_names hM ((mem_pkgNames_iff _ _).mpr ⟨v, hv⟩)
          · exact hAll p' hp''
      | true =>
        obtain ⟨habs, hs1⟩ := try_insert_ok_true hins
        obtain ⟨hF, hM, hS, hAll⟩ := ih s1 s2 h
        have hs1spec : s1.spec = s.spec := by rw [hs1]
        have hs1lock : s1.lockfile = s.lockfile := by rw [hs1]
        have hs1phase : s1.phase = s.phase := by rw [hs1]
        have hs1pkgs : s1.packages = (p.name, p, [p]) :: s.packages := by rw [hs1]
        rw [hs1pkgs] at hM hS
        refine ⟨⟨hF.1.trans hs1spec, hF.2.1.trans hs1lock, hF.2.2.trans hs1phase⟩, ?_, ?_, ?_⟩
        · intro n v hv
          exact hM n v (findPkg_cons_of_absent habs hv)
        · intro n p' pa hp'
          rcases hS n p' pa hp' with h1 | ⟨h1, h2, h3⟩
          · by_cases hnp : p.name = n
            · subst hnp
              rw [findPkg_cons_self] at h1
              obtain ⟨rfl, rfl⟩ : p = p' ∧ [p] = pa := by
                have := Option.some.inj h1
                exact ⟨congrArg Prod.fst this, congrArg Prod.snd this⟩
              exact Or.inr ⟨List.mem_cons_self _ _, rfl, rfl⟩
            · rw [findPkg_cons_ne hnp] at h1
              exact Or.inl h1
          · exact Or.inr ⟨List.mem_cons_of_mem _ h1, h2, h3⟩
        · intro p' hp'
          rcases List.mem_cons.mp hp' with rfl | hp''
          · refine monoPost_names hM ?_
            simp [pkgNames]
          · exact hAll p' hp''

theorem addAllLoop_ok_nameOnly : ∀ ps s, s.phase = Phase.nameIntersection →
    ∃ s2, addAllLoop s ps = Res.ok s2 := by
  intro ps
  induction ps with
  | nil =>
    intro s _
    exact ⟨s, rfl⟩
  | cons p rest ih =>
    intro s hp
    simp only [addAllLoop]
    cases hf : findPkg s.packages p.name with
    | some ex =>
      have hins : try_insert_package s p [p] = .ok (s, false) := by
        unfold try_insert_package
        simp only [hf]
        rw [if_neg]
        intro hc
        rw [hp] at hc
        exact Phase.noConfusion hc.1
      rw [hins]
      exact ih s hp
    | none =>
      have hins : try_insert_package s p [p] =
          .ok ({ s with packages := (p.name, p, [p]) :: s.packages }, true) := by
        unfold try_insert_package
        simp only [hf]
      rw [hins]
      exact ih _ hp

theorem addAllLoop_ok_of_nodup : ∀ ps s, (ps.map Package.name).Nodup →
    (∀ p ∈ ps, p.name ∉ pkgNames s.packages) →
    ∃ s2, addAllLoop s ps = Res.ok s2 := by
  intro ps
  induction ps with
  | nil =>
    intro s _ _
    exact ⟨s, rfl⟩
  | cons p rest ih =>
    intro s hnd habs
    simp only [addAllLoop]
    have hf : findPkg s.packages p.name = none :=
      (findPkg_eq_none_iff _ _).mpr (habs p (List.mem_cons_self _ _))
    have hins : try_insert_package s p [p] =
        .ok ({ s with packages := (p.name, p, [p]) :: s.packages }, true) := by
      unfold try_insert_package
      simp only [hf]
    rw [hins]
    refine ih _ ((List.nodup_cons.mp (by simpa using hnd)).2) ?_
    intro p' hp'
    have hne : p'.name ≠ p.name := by
      intro he
      have : p.name ∈ rest.map Package.name := by
        rw [← he]
        exact List.mem_map_of_mem _ hp'
      exact (List.nodup_cons.mp (by simpa using hnd)).1 this
    intro hmem
    simp only [pkgNames, Finset.mem_insert] at hmem
    rcases hmem with h1 | h1
    · exact hne h1
    · exact habs p' (List.mem_cons_of_mem _ hp') h1

theorem addAllLoop_names : ∀ ps s s2, addAllLoop s ps = Res.ok s2 →
    pkgNames s2.packages = pkgNames s.packages ∪ (ps.map Package.name).toFinset := by
  intro ps s s2 h
  obtain ⟨hF, hM, hS, hAll⟩ := addAllLoop_spec ps s s2 h
  ext n
  simp only [Finset.mem_union, List.mem_toFinset, List.mem_map]
  constructor
  · intro hn
    obtain ⟨⟨p, pa⟩, hv⟩ := (mem_pkgNames_iff _ _).mp hn
    rcases hS n p pa hv with h1 | ⟨h1, h2, _⟩
    · exact Or.inl ((mem_pkgNames_iff _ _).mpr ⟨_, h1⟩)
    · exact Or.inr ⟨p, h1, h2⟩
  · intro hn
    rcases hn with h1 | ⟨p, h1, h2⟩
    · exact monoPost_names hM h1
    · rw [← h2]
      exact hAll p h1

theorem seedMatches_spec {spec : Spec} {p : Package} (h : seedMatches spec p = true) :
    p.name ∉ spec.exclude_pkgs ∧ (∀ n, spec.pkg_name = some n → p.name = n) ∧
      (∀ hsh, spec.pkg_hash = some hsh → package_matches_hash p hsh = true) := by
  unfold seedMatches at h
  simp only [Bool.and_eq_true, decide_eq_true_eq] at h
  refine ⟨h.1.1, ?_, ?_⟩
  · intro n hn
    have := h.1.2
    rw [hn] at this
    simpa using this
  · intro hsh hh
    have := h.2
    rw [hh] at this
    exact this

theorem add_packages_frame {fuel : Nat} {s s2 : St} (h : add_packages fuel s = Res.ok s2) :
    framePost s s2 := by
  unfold add_packages at h
  by_cases hc : (s.spec.pkg_name.isSome || s.spec.pkg_hash.isSome) = true
  · rw [if_pos hc] at h
    unfold add_packages_in_dependency_tree at h
    cases hfind : s.lockfile.find? (fun p => seedMatches s.spec p) with
    | none =>
      rw [hfind] at h
      exact Res.noConfusion h
    | some r =>
      rw [hfind] at h
      have hw := (goodWalk_walkDeps fuel) _ _ _ _ h
      exact ⟨hw.1.1, hw.1.2.1, hw.1.2.2⟩
  · rw [if_neg hc] at h
    unfold add_all_packages_in_lockfile at h
    exact (addAllLoop_spec _ _ _ h).1

theorem add_packages_excl {fuel : Nat} {s s2 : St} (h : add_packages fuel s = Res.ok s2)
    (hinit : s.packages = []) : ∀ n ∈ s.spec.exclude_pkgs, n ∉ pkgNames s2.packages := by
  intro n hn hmem
  obtain ⟨⟨p, pa⟩, hv⟩ := (mem_pkgNames_iff _ _).mp hmem
  unfold add_packages at h
  by_cases hc : (s.spec.pkg_name.isSome || s.spec.pkg_hash.isSome) = true
  · rw [if_pos hc] at h
    unfold add_packages_in_dependency_tree at h
    cases hfind : s.lockfile.find? (fun p => seedMatches s.spec p) with
    | none =>
      rw [hfind] at h
      exact Res.noConfusion h
    | some r =>
      rw [hfind] at h
      have hseed := seedMatches_spec (List.find?_some hfind)
      have hS := ((goodWalk_walkDeps fuel) _ _ _ _ h).2.2.1
      rcases hS n p pa hv with h1 | ⟨hpn, d, _, hdex, q, hq, hreach⟩
      · revert h1
        show findPkg ({ s with packages := _ } : St).packages n = some (p, pa) → False
        rw [hinit]
        intro h1
        by_cases hrn : r.name = n
        · subst hrn
          exact hseed.1 hn
        · rw [findPkg_cons_ne hrn] at h1
          exact Option.noConfusion h1
      · have hqn : q.name ∉ s.spec.exclude_pkgs := by
          rw [resolveDep_name hq]
          exact hdex
        have := Reaches.name_not_excl hreach hqn
        rw [hpn] at this
        exact this hn
  · rw [if_neg hc] at h
    unfold add_all_packages_in_lockfile at h
    obtain ⟨hF, hM, hS, hAll⟩ := addAllLoop_spec _ _ _ h
    rcases hS n p pa hv with h1 | ⟨h1, h2, _⟩
    · rw [hinit] at h1
      exact Option.noConfusion h1
    · have := List.of_mem_filter h1
      rw [h2] at this
      simp only [decide_eq_true_eq] at this
      exact this hn


theorem nodup_name_inj {lf : List Package} (hnd : (lf.map Package.name).Nodup)
    {p p' : Package} (hp : p ∈ lf) (hp' : p' ∈ lf) (he : p.name = p'.name) : p = p' :=
  List.inj_on_of_nodup_map hnd hp hp' he

theorem lockfileNames_card_le (lf : List Package) :
    (lockfileNames lf).card ≤ lf.length := by
  induction lf with
  | nil => simp [lockfileNames]
  | cons p ps ih =>
    simp only [lockfileNames, List.length_cons]
    exact le_trans (Finset.card_insert_le _ _) (Nat.succ_le_succ ih)

theorem addAllLoop_ne_out : ∀ ps s, addAllLoop s ps ≠ Res.out := by
  intro ps
  induction ps with
  | nil =>
    intro s h
    exact Res.noConfusion h
  | cons p rest ih =>
    intro s h
    simp only [addAllLoop] at h
    cases hins : try_insert_package s p [p] with
    | error e =>
      simp only [hins] at h
      exact Res.noConfusion h
    | ok pr =>
      obtain ⟨s1, inserted⟩ := pr
      simp only [hins] at h
      exact ih s1 h

theorem add_packages_ne_out {fuel : Nat} {s : St} (hfuel : s.lockfile.length < fuel) :
    add_packages fuel s ≠ Res.out := by
  unfold add_packages
  by_cases hc : (s.spec.pkg_name.isSome || s.spec.pkg_hash.isSome) = true
  · rw [if_pos hc]
    unfold add_packages_in_dependency_tree
    cases hfind : s.lockfile.find? (fun p => seedMatches s.spec p) with
    | none =>
      intro h
      exact Res.noConfusion h
    | some r =>
      apply walkDeps_no_out
      have h1 : remaining { s with packages := (r.name, r, [r]) :: s.packages } ≤
          (lockfileNames s.lockfile).card :=
        Finset.card_le_card (Finset.sdiff_subset)
      have h2 := lockfileNames_card_le s.lockfile
      omega
  · rw [if_neg hc]
    unfold add_all_packages_in_lockfile
    exact addAllLoop_ne_out _ _

theorem rooted_build {fuel : Nat} {spec : Spec} {lf : List Package} {ph : Phase}
    {x : String} {s2 : St}
    (hname : spec.pkg_name = some x)
    (hnd : (lf.map Package.name).Nodup)
    (h : add_packages fuel { spec := spec, lockfile := lf, packages := [], phase := ph } =
      Res.ok s2) :
    ∃ X, findPkg s2.packages x = some (X, [X]) ∧ X ∈ lf ∧ X.name = x ∧
      seedMatches spec X = true ∧
      (∀ r, Reaches lf spec.exclude_pkgs X r →
        ∃ pb, findPkg s2.packages r.name = some (r, pb)) ∧
      (∀ n p pc, findPkg s2.packages n = some (p, pc) →
        p.name = n ∧ p ∈ lf ∧ Reaches lf spec.exclude_pkgs X p) := by
  unfold add_packages at h
  rw [if_pos (by rw [hname]; rfl)] at h
  unfold add_packages_in_dependency_tree at h
  cases hfind : List.find? (fun p => seedMatches spec p) lf with
  | none =>
    rw [show ({ spec := spec, lockfile := lf, packages := [], phase := ph } : St).lockfile
        = lf from rfl, hfind] at h
    exact Res.noConfusion h
  | some X =>
    rw [show ({ spec := spec, lockfile := lf, packages := [], phase := ph } : St).lockfile
        = lf from rfl, hfind] at h
    have hseedEq : seedMatches spec X = true := List.find?_some hfind
    have hXlf : X ∈ lf := List.mem_of_find?_eq_some hfind
    have hseed := seedMatches_spec hseedEq
    have hXname : X.name = x := hseed.2.1 x hname
    obtain ⟨hF, hM, hS, hC, hCl⟩ := (goodWalk_walkDeps fuel) _ _ _ _ h
    have hroot : findPkg s2.packages X.name = some (X, [X]) := by
      refine hM X.name (X, [X]) ?_
      exact findPkg_cons_self
    have hsound : ∀ n p pc, findPkg s2.packages n = some (p, pc) →
        p.name = n ∧ p ∈ lf ∧ Reaches lf spec.exclude_pkgs X p := by
      intro n p pc hp
      rcases hS n p pc hp with h1 | ⟨hpn, d, hd, hdex, q, hq, hreach⟩
      · by_cases hxn : X.name = n
        · subst hxn
          rw [findPkg_cons_self] at h1
          obtain rfl : X = p := congrArg Prod.fst (Option.some.inj h1)
          exact ⟨rfl, hXlf, Reaches.refl X⟩
        · rw [findPkg_cons_ne hxn] at h1
          exact Option.noConfusion h1
      · refine ⟨hpn, ?_, Reaches.step hd hdex hq hreach⟩
        rcases Reaches.mem_or_eq hreach with rfl | h2
        · exact resolveDep_mem hq
        · exact h2
    have hvals : ∀ n p pc, findPkg s2.packages n = some (p, pc) →
        p ∈ lf ∧ p.name = n ∧
          closedAt lf spec.exclude_pkgs (pkgNames s2.packages) p := by
      intro n p pc hp
      obtain ⟨hpn, hplf, -⟩ := hsound n p pc hp
      refine ⟨hplf, hpn, ?_⟩
      rcases hCl n p pc hp with h1 | h1
      · by_cases hxn : X.name = n
        · subst hxn
          rw [findPkg_cons_self] at h1
          obtain rfl : X = p := congrArg Prod.fst (Option.some.inj h1)
          intro d hd hdex q hq
          exact hC d hd hdex q hq
        · rw [findPkg_cons_ne hxn] at h1
          exact Option.noConfusion h1
      · exact h1
    have hcomplete : ∀ X' r, Reaches lf spec.exclude_pkgs X' r →
        ∀ pb', findPkg s2.packages X'.name = some (X', pb') → X' ∈ lf →
        ∃ pb, findPkg s2.packages r.name = some (r, pb) := by
      intro X' r hr
      induction hr with
      | refl p =>
        intro pb' h1 _
        exact ⟨pb', h1⟩
      | step hd hdex hq hr ih =>
        rename_i p q r d
        intro pb' h1 hmem
        have hcl := (hvals _ _ _ h1).2.2
        have hqmem : q.name ∈ pkgNames s2.packages := hcl d hd hdex q hq
        obtain ⟨⟨p', pc'⟩, hv'⟩ := (mem_pkgNames_iff _ _).mp hqmem
        have hfacts := hvals _ _ _ hv'
        obtain rfl : p' = q :=
          nodup_name_inj hnd hfacts.1 (resolveDep_mem hq) hfacts.2.1
        exact ih pc' hv' (resolveDep_mem hq)
    refine ⟨X, ?_, hXlf, hXname, hseedEq, ?_, hsound⟩
    · rw [← hXname]
      exact hroot
    · intro r hr
      exact hcomplete X r hr [X] hroot hXlf


theorem charListLe_total : ∀ a b, charListLe a b = true ∨ charListLe b a = true := by
  intro a
  induction a with
  | nil =>
    intro b
    exact Or.inl rfl
  | cons c cs ih =>
    intro b
    cases b with
    | nil => exact Or.inr rfl
    | cons d ds =>
      by_cases h1 : c.toNat < d.toNat
      · left
        simp [charListLe, h1]
      · by_cases h2 : d.toNat < c.toNat
        · right
          simp [charListLe, h2]
        · rcases ih ds with h | h
          · left
            simp [charListLe, h1, h2, h]
          · right
            simp [charListLe, h1, h2, h]

theorem charListLe_trans : ∀ a b c, charListLe a b = true → charListLe b c = true →
    charListLe a c = true := by
  intro a
  induction a with
  | nil =>
    intro b c _ _
    rfl
  | cons x xs ih =>
    intro b c hab hbc
    cases b with
    | nil => exact absurd hab (by simp [charListLe])
    | cons y ys =>
      cases c with
      | nil => exact absurd hbc (by simp [charListLe])
      | cons z zs =>
        simp only [charListLe] at hab hbc ⊢
        by_cases hxy : x.toNat < y.toNat <;> by_cases hyz : y.toNat < z.toNat
        · rw [if_pos (Nat.lt_trans hxy hyz)]
        · rw [if_neg hyz] at hbc
          by_cases hzy : z.toNat < y.toNat
          · rw [if_pos hzy] at hbc
            exact absurd hbc (by simp)
          · rw [if_pos (show x.toNat < z.toNat by omega)]
        · rw [if_neg hxy] at hab
          by_cases hyx : y.toNat < x.toNat
          · rw [if_pos hyx] at hab
            exact absurd hab (by simp)
          · rw [if_pos (show x.toNat < z.toNat by omega)]
        · rw [if_neg hxy] at hab
          rw [if_neg hyz] at hbc
          by_cases hyx : y.toNat < x.toNat
          · rw [if_pos hyx] at hab
            exact absurd hab (by simp)
          · rw [if_neg hyx] at hab
            by_cases hzy : z.toNat < y.toNat
            · rw [if_pos hzy] at hbc
              exact absurd hbc (by simp)
            · rw [if_neg hzy] at hbc
              rw [if_neg (show ¬ x.toNat < z.toNat by omega),
                if_neg (show ¬ z.toNat < x.toNat by omega)]
              exact ih ys zs hab hbc

instance : IsTotal String strLeP := ⟨fun a b => charListLe_total a.data b.data⟩

instance : IsTrans String strLeP := ⟨fun a b c => charListLe_trans a.data b.data c.data⟩

theorem mem_map_fst_iff {u : PkgMap} {n : String} :
    n ∈ u.map (fun e => e.1) ↔ n ∈ pkgNames u := by
  induction u with
  | nil => simp [pkgNames]
  | cons e u ih => simp [pkgNames, ih]

theorem mem_interList {ua ub : PkgMap} {n : String} :
    n ∈ interList ua ub ↔ n ∈ pkgNames ua ∧ n ∈ pkgNames ub := by
  unfold interList
  rw [List.Perm.mem_iff (List.perm_insertionSort _ _), List.mem_dedup, List.mem_filter]
  constructor
  · rintro ⟨h1, h2⟩
    exact ⟨mem_map_fst_iff.mp h1, by simpa using h2⟩
  · rintro ⟨h1, h2⟩
    exact ⟨mem_map_fst_iff.mpr h1, by simpa using h2⟩

theorem interList_nodup (ua ub : PkgMap) : (interList ua ub).Nodup :=
  (List.Perm.nodup_iff (List.perm_insertionSort _ _)).mpr (List.nodup_dedup _)

theorem interList_sorted (ua ub : PkgMap) : (interList ua ub).Sorted strLeP :=
  List.sorted_insertionSort _ _

theorem interList_toFinset (ua ub : PkgMap) :
    (interList ua ub).toFinset = pkgNames ua ∩ pkgNames ub := by
  ext n
  rw [List.mem_toFinset, mem_interList, Finset.mem_inter]

theorem interList_length (ua ub : PkgMap) :
    (interList ua ub).length = (pkgNames ua ∩ pkgNames ub).card := by
  rw [← interList_toFinset ua ub, List.toFinset_card_of_nodup (interList_nodup ua ub)]


theorem reportLines_all_iff : ∀ (ns : List String) (v : Bool) (ua ub : PkgMap),
    (reportLines v ua ub ns).1 = true ↔
      ∀ n ∈ ns, ∀ pa pb, findPkg ua n = some pa → findPkg ub n = some pb →
        pa.1.version = pb.1.version := by
  intro ns
  induction ns with
  | nil =>
    intro v ua ub
    simp [reportLines]
  | cons n rest ih =>
    intro v ua ub
    simp only [reportLines]
    cases hfa : findPkg ua n with
    | none =>
      simp only [hfa]
      rw [ih]
      constructor
      · intro h m hm pa pb h1 h2
        rcases List.mem_cons.mp hm with rfl | hm'
        · rw [hfa] at h1
          exact Option.noConfusion h1
        · exact h m hm' pa pb h1 h2
      · intro h m hm pa pb h1 h2
        exact h m (List.mem_cons_of_mem _ hm) pa pb h1 h2
    | some pa0 =>
      cases hfb : findPkg ub n with
      | none =>
        simp only [hfa, hfb]
        rw [ih]
        constructor
        · intro h m hm pa pb h1 h2
          rcases List.mem_cons.mp hm with rfl | hm'
          · rw [hfb] at h2
            exact Option.noConfusion h2
          · exact h m hm' pa pb h1 h2
        · intro h m hm pa pb h1 h2
          exact h m (List.mem_cons_of_mem _ hm) pa pb h1 h2
      | some pb0 =>
        simp only [hfa, hfb]
        by_cases hv : pa0.1.version = pb0.1.version
        · rw [if_pos hv]
          show (reportLines v ua ub rest).1 = true ↔ _
          rw [ih]
          constructor
          · intro h m hm pa pb h1 h2
            rcases List.mem_cons.mp hm with rfl | hm'
            · rw [hfa] at h1
              rw [hfb] at h2
              obtain rfl := Option.some.inj h1
              obtain rfl := Option.some.inj h2
              exact hv
            · exact h m hm' pa pb h1 h2
          · intro h m hm pa pb h1 h2
            exact h m (List.mem_cons_of_mem _ hm) pa pb h1 h2
        · rw [if_neg hv]
          simp only [Bool.false_eq_true, false_iff]
          intro h
          exact hv (h n (List.mem_cons_self _ _) pa0 pb0 hfa hfb)

theorem reportLines_different_mem : ∀ (ns : List String) (v : Bool) (ua ub : PkgMap)
    (n : String) (pa pb : Package × List Package),
    n ∈ ns → findPkg ua n = some pa → findPkg ub n = some pb →
    pa.1.version ≠ pb.1.version →
    Line.different n pa.1.version pb.1.version (path_to_str pa.2) (path_to_str pb.2) ∈
      (reportLines v ua ub ns).2 := by
  intro ns
  induction ns with
  | nil =>
    intro v ua ub n pa pb hm
    exact absurd hm (List.not_mem_nil n)
  | cons m rest ih =>
    intro v ua ub n pa pb hm hfa hfb hv
    rcases List.mem_cons.mp hm with rfl | hm'
    · simp only [reportLines, hfa, hfb, if_neg hv]
      exact List.mem_cons_self _ _
    · have htail := ih v ua ub n pa pb hm' hfa hfb hv
      simp only [reportLines]
      cases hfa0 : findPkg ua m with
      | none =>
        simp only [hfa0]
        exact htail
      | some pa0 =>
        cases hfb0 : findPkg ub m with
        | none =>
          simp only [hfa0, hfb0]
          exact htail
        | some pb0 =>
          simp only [hfa0, hfb0]
          by_cases hv0 : pa0.1.version = pb0.1.version
          · rw [if_pos hv0]
            exact List.mem_append_right _ htail
          · rw [if_neg hv0]
            exact List.mem_cons_of_mem _ htail

theorem reportLines_same_mem_iff : ∀ (ns : List String) (v : Bool) (ua ub : PkgMap)
    (n ver : String),
    Line.same n ver ∈ (reportLines v ua ub ns).2 ↔
      (v = true ∧ ∃ m ∈ ns, m = n ∧ ∃ pa pb, findPkg ua m = some pa ∧
        findPkg ub m = some pb ∧ pa.1.version = pb.1.version ∧ ver = pa.1.version) := by
  intro ns
  induction ns with
  | nil =>
    intro v ua ub n ver
    simp [reportLines]
  | cons m rest ih =>
    intro v ua ub n ver
    simp only [reportLines]
    cases hfa : findPkg ua m with
    | none =>
      simp only [hfa]
      rw [ih]
      constructor
      · rintro ⟨hvv, m', hm', rest'⟩
        exact ⟨hvv, m', List.mem_cons_of_mem _ hm', rest'⟩
      · rintro ⟨hvv, m', hm', heq, pa, pb, h1, h2, h3, h4⟩
        rcases List.mem_cons.mp hm' with rfl | hm''
        · rw [hfa] at h1
          exact Option.noConfusion h1
        · exact ⟨hvv, m', hm'', heq, pa, pb, h1, h2, h3, h4⟩
    | some pa0 =>
      cases hfb : findPkg ub m with
      | none =>
        simp only [hfa, hfb]
        rw [ih]
        constructor
        · rintro ⟨hvv, m', hm', rest'⟩
          exact ⟨hvv, m', List.mem_cons_of_mem _ hm', rest'⟩
        · rintro ⟨hvv, m', hm', heq, pa, pb, h1, h2, h3, h4⟩
          rcases List.mem_cons.mp hm' with rfl | hm''
          · rw [hfb] at h2
            exact Option.noConfusion h2
          · exact ⟨hvv, m', hm'', heq, pa, pb, h1, h2, h3, h4⟩
      | some pb0 =>
        simp only [hfa, hfb]
        by_cases hveq : pa0.1.version = pb0.1.version
        · rw [if_pos hveq]
          cases v with
          | false =>
            rw [if_neg (by simp), List.nil_append, ih]
            constructor
            · rintro ⟨hvv, -⟩
              exact absurd hvv Bool.false_ne_true
            · rintro ⟨hvv, -⟩
              exact absurd hvv Bool.false_ne_true
          | true =>
            rw [if_pos rfl, List.singleton_append]
            constructor
            · intro hmem
              rcases List.mem_cons.mp hmem with heq | hmem'
              · injection heq with h1 h2
                subst h1
                subst h2
                exact ⟨rfl, _, List.mem_cons_self _ _, rfl, pa0, pb0, hfa, hfb, hveq, rfl⟩
              · obtain ⟨hvv, m', hm', hrest⟩ := (ih true ua ub n ver).mp hmem'
                exact ⟨hvv, m', List.mem_cons_of_mem _ hm', hrest⟩
            · rintro ⟨hvv, m', hm', heq, pa, pb, h1, h2, h3, h4⟩
              rcases List.mem_cons.mp hm' with rfl | hm''
              · subst heq
                rw [hfa] at h1
                obtain rfl := Option.some.inj h1
                rw [h4]
                exact List.mem_cons_self _ _
              · exact List.mem_cons_of_mem _
                  ((ih true ua ub n ver).mpr ⟨rfl, m', hm'', heq, pa, pb, h1, h2, h3, h4⟩)
        · rw [if_neg hveq]
          constructor
          · intro hmem
            rcases List.mem_cons.mp hmem with heq | hmem'
            · exact absurd heq (by simp)
            · obtain ⟨hvv, m', hm', hrest⟩ := (ih v ua ub n ver).mp hmem'
              exact ⟨hvv, m', List.mem_cons_of_mem _ hm', hrest⟩
          · rintro ⟨hvv, m', hm', heq, pa, pb, h1, h2, h3, h4⟩
            rcases List.mem_cons.mp hm' with rfl | hm''
            · subst heq
              rw [hfa] at h1
              rw [hfb] at h2
              obtain rfl := Option.some.inj h1
              obtain rfl := Option.some.inj h2
              exact absurd h3 hveq
            · exact List.mem_cons_of_mem _
                ((ih v ua ub n ver).mpr ⟨hvv, m', hm'', heq, pa, pb, h1, h2, h3, h4⟩)


theorem containsSub_intro (pre post needle : String) :
    containsSub (pre ++ (needle ++ post)) needle :=
  ⟨pre.data, post.data, by simp [String.data_append]⟩

theorem containsSub_cons {t needle : String} (st : String) (h : containsSub t needle) :
    containsSub (st ++ t) needle := by
  obtain ⟨a, b, hab⟩ := h
  exact ⟨st.data ++ a, b, by simp [String.data_append, hab]⟩

theorem containsSub_last (st needle : String) : containsSub (st ++ needle) needle :=
  ⟨st.data, [], by simp [String.data_append]⟩

theorem calcInter_ok_elim {fuel : Nat} {sa sb sa2 sb2 : St} {i : List String}
    (h : addPackagesAndCalcIntersection fuel sa sb = Res.ok (sa2, sb2, i)) :
    add_packages fuel sa = Res.ok sa2 ∧ add_packages fuel sb = Res.ok sb2 ∧
      i = interList sa2.packages sb2.packages := by
  unfold addPackagesAndCalcIntersection at h
  cases h1 : add_packages fuel sa with
  | err e =>
    simp only [h1] at h
    exact Res.noConfusion h
  | out =>
    simp only [h1] at h
    exact Res.noConfusion h
  | ok sa2' =>
    simp only [h1] at h
    cases h2 : add_packages fuel sb with
    | err e =>
      simp only [h2] at h
      exact Res.noConfusion h
    | out =>
      simp only [h2] at h
      exact Res.noConfusion h
    | ok sb2' =>
      simp only [h2] at h
      have hh : sa2' = sa2 ∧ sb2' = sb2 ∧ interList sa2'.packages sb2'.packages = i := by
        simpa using Res.ok.inj h
      obtain ⟨rfl, rfl, rfl⟩ := hh
      exact ⟨rfl, rfl, rfl⟩

theorem calcInter_ok_intro {fuel : Nat} {sa sb sa2 sb2 : St}
    (h1 : add_packages fuel sa = Res.ok sa2) (h2 : add_packages fuel sb = Res.ok sb2) :
    addPackagesAndCalcIntersection fuel sa sb =
      Res.ok (sa2, sb2, interList sa2.packages sb2.packages) := by
  unfold addPackagesAndCalcIntersection
  simp only [h1, h2]

theorem calcInter_err_left {fuel : Nat} {sa sb : St} {e : String}
    (h : add_packages fuel sa = Res.err e) :
    addPackagesAndCalcIntersection fuel sa sb = Res.err e := by
  unfold addPackagesAndCalcIntersection
  simp only [h]

theorem calcInter_err_right {fuel : Nat} {sa sb sa2 : St} {e : String}
    (h1 : add_packages fuel sa = Res.ok sa2) (h2 : add_packages fuel sb = Res.err e) :
    addPackagesAndCalcIntersection fuel sa sb = Res.err e := by
  unfold addPackagesAndCalcIntersection
  simp only [h1, h2]

theorem runPasses_ok_step {fuel : Nat} {v : Bool} {lfA lfB : List Package}
    {specA specB : Spec} {a1 b1 : St} {i0 : List String}
    (h : addPackagesAndCalcIntersection fuel (initSt specA lfA) (initSt specB lfB) =
      Res.ok (a1, b1, i0)) :
    runPasses fuel v lfA lfB specA specB =
      secondPhase fuel v (pass2St a1 i0) (pass2St b1 i0) := by
  unfold runPasses
  simp only [h]

theorem runPasses_err_step {fuel : Nat} {v : Bool} {lfA lfB : List Package}
    {specA specB : Spec} {e : String}
    (h : addPackagesAndCalcIntersection fuel (initSt specA lfA) (initSt specB lfB) =
      Res.err e) :
    runPasses fuel v lfA lfB specA specB = Res.err e := by
  unfold runPasses
  simp only [h]

theorem secondPhase_ok_step {fuel : Nat} {v : Bool} {a2 b2 a3 b3 : St} {i : List String}
    (h : addPackagesAndCalcIntersection fuel a2 b2 = Res.ok (a3, b3, i)) :
    secondPhase fuel v a2 b2 =
      Res.ok ((reportLines v a3.packages b3.packages i).2,
        (reportLines v a3.packages b3.packages i).1) := by
  unfold secondPhase
  simp only [h]

theorem secondPhase_err_step {fuel : Nat} {v : Bool} {a2 b2 : St} {e : String}
    (h : addPackagesAndCalcIntersection fuel a2 b2 = Res.err e) :
    secondPhase fuel v a2 b2 = Res.err e := by
  unfold secondPhase
  simp only [h]

theorem run_of_ok {fuel : Nat} {v : Bool} {lfA lfB : List Package} {sA sB : Spec}
    {lines : List Line}
    (h : runPasses fuel v lfA lfB sA sB = Res.ok (lines, true)) :
    run fuel v lfA lfB sA sB = Res.ok lines := by
  unfold run
  simp [h]

theorem run_of_mismatch {fuel : Nat} {v : Bool} {lfA lfB : List Package} {sA sB : Spec}
    {lines : List Line}
    (h : runPasses fuel v lfA lfB sA sB = Res.ok (lines, false)) :
    run fuel v lfA lfB sA sB = Res.err "Some packages have different versions" := by
  unfold run
  simp only [h]
  rw [if_neg Bool.false_ne_true]

theorem run_of_err {fuel : Nat} {v : Bool} {lfA lfB : List Package} {sA sB : Spec}
    {e : String} (h : runPasses fuel v lfA lfB sA sB = Res.err e) :
    run fuel v lfA lfB sA sB = Res.err e := by
  unfold run
  simp only [h]

theorem mem_narrow_iff {spec : Spec} {uN : Finset String} {i0 : List String} {n : String} :
    n ∈ (narrowSpec spec uN i0).exclude_pkgs ↔
      n ∈ spec.exclude_pkgs ∨ (n ∈ uN ∧ n ∉ i0) := by
  simp [narrowSpec, Finset.mem_union, Finset.mem_filter]


theorem containsSub_head (needle post : String) : containsSub (needle ++ post) needle :=
  ⟨[], post.data, by simp [String.data_append]⟩

theorem multipleVersionsMsg_reports (name src v1 v2 : String) (path : List Package) :
    containsSub (multipleVersionsMsg name src v1 v2 path) name ∧
      containsSub (multipleVersionsMsg name src v1 v2 path) src ∧
      containsSub (multipleVersionsMsg name src v1 v2 path) v1 ∧
      containsSub (multipleVersionsMsg name src v1 v2 path) v2 ∧
      containsSub (multipleVersionsMsg name src v1 v2 path) (path_to_str path) := by
  unfold multipleVersionsMsg
  refine ⟨containsSub_intro _ _ _, ?_, ?_, ?_, ?_⟩
  · exact containsSub_cons _ (containsSub_cons _ (containsSub_cons _ (containsSub_head _ _)))
  · exact containsSub_cons _ (containsSub_cons _ (containsSub_cons _ (containsSub_cons _
      (containsSub_cons _ (containsSub_head _ _)))))
  · exact containsSub_cons _ (containsSub_cons _ (containsSub_cons _ (containsSub_cons _
      (containsSub_cons _ (containsSub_cons _ (containsSub_cons _ (containsSub_head _ _)))))))
  · exact containsSub_cons _ (containsSub_cons _ (containsSub_cons _ (containsSub_cons _
      (containsSub_cons _ (containsSub_cons _ (containsSub_cons _ (containsSub_cons _
      (containsSub_last _ _))))))))

theorem rootNotFoundMsg_reports (spec : Spec) :
    containsSub (rootNotFoundMsg spec) (optDebug spec.pkg_name) ∧
      containsSub (rootNotFoundMsg spec) (optDebug spec.pkg_hash) ∧
      containsSub (rootNotFoundMsg spec) spec.src := by
  unfold rootNotFoundMsg
  exact ⟨containsSub_intro _ _ _,
    containsSub_cons _ (containsSub_cons _ (containsSub_intro _ _ _)),
    containsSub_cons _ (containsSub_cons _ (containsSub_cons _ (containsSub_cons _
      (containsSub_last _ _))))⟩

theorem find?_first {α : Type} {l1 l2 : List α} {r : α} {pred : α → Bool}
    (h1 : ∀ p ∈ l1, pred p = false) (hr : pred r = true) :
    (l1 ++ r :: l2).find? pred = some r := by
  induction l1 with
  | nil =>
    simp only [List.nil_append]
    exact List.find?_cons_of_pos _ hr
  | cons p ps ih =>
    simp only [List.cons_append]
    rw [List.find?_cons_of_neg]
    · exact ih (fun q hq => h1 q (List.mem_cons_of_mem _ hq))
    · simp [h1 p (List.mem_cons_self _ _)]

theorem seedMatches_iff (spec : Spec) (p : Package) :
    seedMatches spec p = true ↔
      (p.name ∉ spec.exclude_pkgs ∧ (∀ n, spec.pkg_name = some n → p.name = n) ∧
        (∀ hsh, spec.pkg_hash = some hsh → package_matches_hash p hsh = true)) := by
  constructor
  · exact seedMatches_spec
  · rintro ⟨h1, h2, h3⟩
    unfold seedMatches
    simp only [Bool.and_eq_true, decide_eq_true_eq]
    refine ⟨⟨h1, ?_⟩, ?_⟩
    · cases hn : spec.pkg_name with
      | none => rfl
      | some n => simpa using h2 n hn
    · cases hh : spec.pkg_hash with
      | none => rfl
      | some hsh => exact h3 hsh hh

/-- C1: in the name-and-version phase, inserting a package whose name is
already bound to a different version fails with the inconsistency error
reporting the package name, the lockfile source, both versions, and the
dependency path to the new occurrence, and never silently keeps either
version; inserting with an equal version succeeds leaving the universe
unchanged; an absent name is newly inserted. -/
theorem claim_C1_strict_insert (s : St) (p : Package) (path : List Package)
    (hph : s.phase = Phase.nameAndVersionIntersection) :
    (∀ q pa, findPkg s.packages p.name = some (q, pa) → q.version ≠ p.version →
      try_insert_package s p path =
          .error (multipleVersionsMsg p.name s.spec.src q.version p.version path) ∧
        containsSub (multipleVersionsMsg p.name s.spec.src q.version p.version path)
          p.name ∧
        containsSub (multipleVersionsMsg p.name s.spec.src q.version p.version path)
          s.spec.src ∧
        containsSub (multipleVersionsMsg p.name s.spec.src q.version p.version path)
          q.version ∧
        containsSub (multipleVersionsMsg p.name s.spec.src q.version p.version path)
          p.version ∧
        containsSub (multipleVersionsMsg p.name s.spec.src q.version p.version path)
          (path_to_str path)) ∧
    (∀ q pa, findPkg s.packages p.name = some (q, pa) → q.version = p.version →
      try_insert_package s p path = .ok (s, false)) ∧
    (findPkg s.packages p.name = none →
      try_insert_package s p path =
        .ok ({ s with packages := (p.name, p, path) :: s.packages }, true)) := by
  refine ⟨?_, ?_, ?_⟩
  · intro q pa hf hne
    have hmsg := multipleVersionsMsg_reports p.name s.spec.src q.version p.version path
    refine ⟨?_, hmsg.1, hmsg.2.1, hmsg.2.2.1, hmsg.2.2.2.1, hmsg.2.2.2.2⟩
    unfold try_insert_package
    simp only [hf]
    rw [if_pos ⟨hph, hne⟩]
  · intro q pa hf he
    unfold try_insert_package
    simp only [hf]
    rw [if_neg]
    rintro ⟨-, hne⟩
    exact hne he
  · intro hf
    unfold try_insert_package
    simp only [hf]

/-- Witness for C1: the conflicting, the agreeing, and the reported-fields
behavior on a concrete strict-phase state. -/
theorem claim_C1_strict_insert_witness :
    (try_insert_package exInsSt exInsP [exInsP] =
        .error (multipleVersionsMsg "p" "L" "1" "2" [exInsP]) ∧
      containsSub (multipleVersionsMsg "p" "L" "1" "2" [exInsP]) "p" ∧
      containsSub (multipleVersionsMsg "p" "L" "1" "2" [exInsP]) "L" ∧
      containsSub (multipleVersionsMsg "p" "L" "1" "2" [exInsP]) "1" ∧
      containsSub (multipleVersionsMsg "p" "L" "1" "2" [exInsP]) "2" ∧
      containsSub (multipleVersionsMsg "p" "L" "1" "2" [exInsP]) (path_to_str [exInsP])) ∧
    try_insert_package exInsSt ⟨"p", "1", none, none, []⟩ [] = .ok (exInsSt, false) :=
  ⟨(claim_C1_strict_insert exInsSt exInsP [exInsP] rfl).1 ⟨"p", "1", none, none, []⟩ []
      rfl (by decide),
    (claim_C1_strict_insert exInsSt ⟨"p", "1", none, none, []⟩ [] rfl).2.1
      ⟨"p", "1", none, none, []⟩ [] rfl rfl⟩

/-- C6: the selected root is the first package in the lockfile stored order
satisfying every set constraint (name equality; hash equality against the
checksum or the source-precise field) and not excluded; when no package
satisfies them all, the build fails with a root-not-found error reporting the
attempted name, the attempted hash, and the lockfile source. -/
theorem claim_C6_root_selection (fuel : Nat) (s : St) :
    (∀ p, seedMatches s.spec p = true ↔
      (p.name ∉ s.spec.exclude_pkgs ∧ (∀ n, s.spec.pkg_name = some n → p.name = n) ∧
        (∀ hsh, s.spec.pkg_hash = some hsh → package_matches_hash p hsh = true))) ∧
    (∀ l1 r l2, s.lockfile = l1 ++ r :: l2 →
      (∀ p ∈ l1, seedMatches s.spec p = false) → seedMatches s.spec r = true →
      add_packages_in_dependency_tree fuel s =
        walkDeps fuel { s with packages := (r.name, r, [r]) :: s.packages }
          r.dependencies [r]) ∧
    ((∀ p ∈ s.lockfile, seedMatches s.spec p = false) →
      add_packages_in_dependency_tree fuel s = Res.err (rootNotFoundMsg s.spec) ∧
      containsSub (rootNotFoundMsg s.spec) (optDebug s.spec.pkg_name) ∧
      containsSub (rootNotFoundMsg s.spec) (optDebug s.spec.pkg_hash) ∧
      containsSub (rootNotFoundMsg s.spec) s.spec.src) := by
  refine ⟨seedMatches_iff s.spec, ?_, ?_⟩
  · intro l1 r l2 hlock h1 hr
    have hfind : s.lockfile.find? (fun p => seedMatches s.spec p) = some r := by
      rw [hlock]
      exact find?_first h1 hr
    unfold add_packages_in_dependency_tree
    simp only [hfind]
  · intro hall
    have hfind : s.lockfile.find? (fun p => seedMatches s.spec p) = none :=
      List.find?_eq_none.mpr (fun p hp => by simp [hall p hp])
    unfold add_packages_in_dependency_tree
    simp only [hfind]
    have hrep := rootNotFoundMsg_reports s.spec
    exact ⟨trivial, hrep.1, hrep.2.1, hrep.2.2⟩

/-- Witness for C6: with name and hash each matching a different earlier
package, the seed is the first package matching both; and a constraint set
matched by no package yields the root-not-found error with its fields. -/
theorem claim_C6_root_selection_witness :
    add_packages_in_dependency_tree 2 exSelSt =
        walkDeps 2 { exSelSt with packages := ("r", exM3, [exM3]) :: exSelSt.packages }
          exM3.dependencies [exM3] ∧
    (add_packages_in_dependency_tree 2 exNoneSt = Res.err (rootNotFoundMsg exSelSpec) ∧
      containsSub (rootNotFoundMsg exSelSpec) (optDebug exSelSpec.pkg_name) ∧
      containsSub (rootNotFoundMsg exSelSpec) (optDebug exSelSpec.pkg_hash) ∧
      containsSub (rootNotFoundMsg exSelSpec) exSelSpec.src) :=
  ⟨(claim_C6_root_selection 2 exSelSt).2.1 [exM1, exM2] exM3 [] rfl (by decide) (by decide),
    (claim_C6_root_selection 2 exNoneSt).2.2 (by decide)⟩


theorem walkStep_skip {f : St → List Dep → List Package → Res St} {s : St} {dep : Dep}
    {deps : List Dep} {path : List Package}
    (hskip : dep.name ∈ s.spec.exclude_pkgs ∨ resolveDep s.lockfile dep = none) :
    walkStep f s (dep :: deps) path = walkStep f s deps path := by
  rcases hskip with hex | hres
  · simp [walkStep, hex]
  · by_cases hex : dep.name ∈ s.spec.exclude_pkgs
    · simp [walkStep, hex]
    · simp [walkStep, hex, hres]

theorem filter_names_toFinset (lf : List Package) (excl : Finset String) :
    ((lf.filter (fun p => decide (p.name ∉ excl))).map Package.name).toFinset =
      lockfileNames lf \ excl := by
  ext n
  simp only [List.mem_toFinset, List.mem_map, List.mem_filter, decide_eq_true_eq,
    Finset.mem_sdiff, mem_lockfileNames]
  constructor
  · rintro ⟨p, ⟨hp, hpe⟩, rfl⟩
    exact ⟨⟨p, hp, rfl⟩, hpe⟩
  · rintro ⟨⟨p, hp, rfl⟩, hne⟩
    exact ⟨p, ⟨hp, hne⟩, rfl⟩

theorem calcInter_ne_out {fuel : Nat} {sa sb : St} (ha : sa.lockfile.length < fuel)
    (hb : sb.lockfile.length < fuel) :
    addPackagesAndCalcIntersection fuel sa sb ≠ Res.out := by
  unfold addPackagesAndCalcIntersection
  cases h1 : add_packages fuel sa with
  | err e => simp
  | out => exact absurd h1 (add_packages_ne_out ha)
  | ok sa2 =>
    cases h2 : add_packages fuel sb with
    | err e => simp
    | out => exact absurd h2 (add_packages_ne_out hb)
    | ok sb2 => simp

theorem runPasses_ne_out {fuel : Nat} {v : Bool} {lfA lfB : List Package} {sA sB : Spec}
    (ha : lfA.length < fuel) (hb : lfB.length < fuel) :
    runPasses fuel v lfA lfB sA sB ≠ Res.out := by
  unfold runPasses
  cases h1 : addPackagesAndCalcIntersection fuel (initSt sA lfA) (initSt sB lfB) with
  | err e => simp
  | out => exact absurd h1 (calcInter_ne_out ha hb)
  | ok tr =>
    obtain ⟨a1, b1, i0⟩ := tr
    have he := calcInter_ok_elim h1
    have hfa : (pass2St a1 i0).lockfile.length < fuel := by
      have h2 : a1.lockfile = lfA := (add_packages_frame he.1).2.1
      show a1.lockfile.length < fuel
      rw [h2]
      exact ha
    have hfb : (pass2St b1 i0).lockfile.length < fuel := by
      have h2 : b1.lockfile = lfB := (add_packages_frame he.2.1).2.1
      show b1.lockfile.length < fuel
      rw [h2]
      exact hb
    unfold secondPhase
    cases h2 : addPackagesAndCalcIntersection fuel (pass2St a1 i0) (pass2St b1 i0) with
    | err e => simp [h2]
    | out => exact absurd h2 (calcInter_ne_out hfa hfb)
    | ok tr2 =>
      obtain ⟨a3, b3, i⟩ := tr2
      simp [h2]

/-- C3: with a root name set and no hash constraint, a successful build
yields a universe binding the root package (with the singleton path) and
exactly the packages transitively reachable from the root through
non-excluded resolvable edges, and nothing else; edges whose target name is
excluded and edges that resolve to no package are skipped as no-ops rather
than failing. -/
theorem claim_C3_root_scope (fuel : Nat) (spec : Spec) (lf : List Package) (ph : Phase)
    (x : String) (s2 : St)
    (hname : spec.pkg_name = some x) (hhash : spec.pkg_hash = none)
    (hnd : (lf.map Package.name).Nodup)
    (h : add_packages fuel { spec := spec, lockfile := lf, packages := [], phase := ph } =
      Res.ok s2) :
    (∃ X, findPkg s2.packages x = some (X, [X]) ∧ X ∈ lf ∧ X.name = x ∧
      (∀ r, Reaches lf spec.exclude_pkgs X r →
        ∃ pb, findPkg s2.packages r.name = some (r, pb)) ∧
      (∀ n p pc, findPkg s2.packages n = some (p, pc) →
        p.name = n ∧ p ∈ lf ∧ Reaches lf spec.exclude_pkgs X p)) ∧
    (∀ (fuel' : Nat) (s : St) (dep : Dep) (deps : List Dep) (path : List Package),
      dep.name ∈ s.spec.exclude_pkgs ∨ resolveDep s.lockfile dep = none →
      walkDeps (fuel' + 1) s (dep :: deps) path = walkDeps (fuel' + 1) s deps path) := by
  constructor
  · obtain ⟨X, h1, h2, h3, -, h5, h6⟩ := rooted_build hname hnd h
    exact ⟨X, h1, h2, h3, h5, h6⟩
  · intro fuel' s dep deps path hskip
    exact walkStep_skip hskip

/-- Witness for C3: the rooted walk over a lockfile with an excluded edge, an
unresolvable edge, and an unreachable package. -/
theorem claim_C3_root_scope_witness :
    (∃ X, findPkg exRootOut.packages "a" = some (X, [X]) ∧ X ∈ exRootLf ∧ X.name = "a" ∧
      (∀ r, Reaches exRootLf exRootSpec.exclude_pkgs X r →
        ∃ pb, findPkg exRootOut.packages r.name = some (r, pb)) ∧
      (∀ n p pc, findPkg exRootOut.packages n = some (p, pc) →
        p.name = n ∧ p ∈ exRootLf ∧ Reaches exRootLf exRootSpec.exclude_pkgs X p)) ∧
    (∀ (fuel' : Nat) (s : St) (dep : Dep) (deps : List Dep) (path : List Package),
      dep.name ∈ s.spec.exclude_pkgs ∨ resolveDep s.lockfile dep = none →
      walkDeps (fuel' + 1) s (dep :: deps) path = walkDeps (fuel' + 1) s deps path) :=
  claim_C3_root_scope 6 exRootSpec exRootLf Phase.nameIntersection "a" exRootOut rfl rfl
    (by decide) (by decide)

/-- C7: an excluded name never appears in a built universe; under a root
name, every name in the universe is the name of a package reachable from the
root through exclusion-avoiding edges (so a package reachable only through an
excluded package is absent); with no root constraint every non-excluded
lockfile package is a seed and the universe holds exactly the non-excluded
lockfile names. -/
theorem claim_C7_exclusion (fuel : Nat) :
    (∀ s s2, add_packages fuel s = Res.ok s2 → s.packages = [] →
      ∀ n ∈ s.spec.exclude_pkgs, n ∉ pkgNames s2.packages) ∧
    (∀ spec lf ph x s2, spec.pkg_name = some x → (lf.map Package.name).Nodup →
      add_packages fuel { spec := spec, lockfile := lf, packages := [], phase := ph } =
        Res.ok s2 →
      ∀ n, n ∈ pkgNames s2.packages →
        ∃ X p, X ∈ lf ∧ X.name = x ∧ Reaches lf spec.exclude_pkgs X p ∧ p.name = n) ∧
    (∀ s s2, s.spec.pkg_name = none → s.spec.pkg_hash = none → s.packages = [] →
      add_packages fuel s = Res.ok s2 →
      ∀ n, n ∈ pkgNames s2.packages ↔
        (n ∈ lockfileNames s.lockfile ∧ n ∉ s.spec.exclude_pkgs)) := by
  refine ⟨?_, ?_, ?_⟩
  · intro s s2 h hinit
    exact fun n hn => add_packages_excl h hinit n hn
  · intro spec lf ph x s2 hname hnd h n hn
    obtain ⟨X, h1, h2, h3, -, -, h6⟩ := rooted_build hname hnd h
    obtain ⟨⟨p, pc⟩, hv⟩ := (mem_pkgNames_iff _ _).mp hn
    obtain ⟨hpn, hplf, hreach⟩ := h6 n p pc hv
    exact ⟨X, p, h2, h3, hreach, hpn⟩
  · intro s s2 hname hhash hinit h n
    unfold add_packages at h
    rw [if_neg (by simp [hname, hhash])] at h
    unfold add_all_packages_in_lockfile at h
    have hnames := addAllLoop_names _ _ _ h
    rw [hinit] at hnames
    rw [hnames, filter_names_toFinset]
    simp only [pkgNames, Finset.empty_union]
    rw [Finset.mem_sdiff]

/-- Witness for C7: the excluded name e is absent from the rooted universe,
the reachable name c is accounted for by a root path, and the unrooted build
holds exactly the non-excluded names. -/
theorem claim_C7_exclusion_witness :
    ("e" ∉ pkgNames exRootOut.packages) ∧
    (∃ X p, X ∈ exRootLf ∧ X.name = "a" ∧
      Reaches exRootLf exRootSpec.exclude_pkgs X p ∧ p.name = "c") ∧
    ("c" ∈ pkgNames exExclOut.packages ↔
      ("c" ∈ lockfileNames exLfB ∧ "c" ∉ exExclSpec.exclude_pkgs)) :=
  ⟨(claim_C7_exclusion 6).1 ⟨exRootSpec, exRootLf, [], Phase.nameIntersection⟩ exRootOut
      (by decide) rfl "e" (by decide),
    (claim_C7_exclusion 6).2.1 exRootSpec exRootLf Phase.nameIntersection "a" exRootOut
      rfl (by decide) (by decide) "c" (by decide),
    (claim_C7_exclusion 3).2.2 ⟨exExclSpec, exLfB, [], Phase.nameIntersection⟩ exExclOut
      rfl rfl rfl (by decide) "c"⟩

/-- C8: the recursive dependency walk terminates on every finite lockfile
graph, cyclic ones included: a fuel budget exceeding the number of lockfile
packages is never exhausted, because a descent happens only after a new name
binding and so at most once per distinct package name. -/
theorem claim_C8_termination (fuel : Nat) :
    (∀ s : St, s.lockfile.length < fuel → add_packages fuel s ≠ Res.out) ∧
    (∀ (v : Bool) (lfA lfB : List Package) (sA sB : Spec),
      lfA.length < fuel → lfB.length < fuel →
      runPasses fuel v lfA lfB sA sB ≠ Res.out) :=
  ⟨fun _ h => add_packages_ne_out h,
    fun _ _ _ _ _ ha hb => runPasses_ne_out ha hb⟩

/-- Witness for C8: the walk over a cyclic two-package lockfile does not
exhaust its fuel, nor does the full pipeline of the mismatch scenario. -/
theorem claim_C8_termination_witness :
    add_packages 3 exCycSt ≠ Res.out ∧
    runPasses 4 false exLfA exLfB exSpecA exSpecB ≠ Res.out :=
  ⟨(claim_C8_termination 3).1 exCycSt (by decide),
    (claim_C8_termination 4).2 false exLfA exLfB exSpecA exSpecB (by decide) (by decide)⟩


theorem rooted_root_mem {fuel : Nat} {s s2 : St} {x : String}
    (hname : s.spec.pkg_name = some x) (h : add_packages fuel s = Res.ok s2) :
    x ∈ pkgNames s2.packages := by
  unfold add_packages at h
  rw [if_pos (by rw [hname]; rfl)] at h
  unfold add_packages_in_dependency_tree at h
  cases hfind : s.lockfile.find? (fun p => seedMatches s.spec p) with
  | none =>
    simp only [hfind] at h
    exact Res.noConfusion h
  | some r =>
    simp only [hfind] at h
    have hM := ((goodWalk_walkDeps fuel) _ _ _ _ h).2.1
    have hr : r.name = x := (seedMatches_spec (List.find?_some hfind)).2.1 x hname
    have hb : findPkg s2.packages r.name = some (r, [r]) := hM _ _ findPkg_cons_self
    rw [hr] at hb
    exact (mem_pkgNames_iff _ _).mpr ⟨_, hb⟩

/-- C2: between the passes, for each side exactly the names present in that
side's discovery universe but not in the first-pass intersection are added to
the side's Spec exclusion set, no other Spec field changes, and both
universes are cleared and rebuilt from scratch from the original lockfile
graph with the augmented Spec. -/
theorem claim_C2_narrowing (fuel : Nat) (v : Bool) (lfA lfB : List Package)
    (specA specB : Spec) (a1 b1 : St) (i0 : List String)
    (h : addPackagesAndCalcIntersection fuel (initSt specA lfA) (initSt specB lfB) =
      Res.ok (a1, b1, i0)) :
    (∀ n, n ∈ (pass2St a1 i0).spec.exclude_pkgs ↔
      (n ∈ specA.exclude_pkgs ∨ (n ∈ pkgNames a1.packages ∧ n ∉ i0))) ∧
    (∀ n, (n ∈ (pass2St a1 i0).spec.exclude_pkgs ∧ n ∉ specA.exclude_pkgs) ↔
      (n ∈ pkgNames a1.packages ∧ n ∉ i0)) ∧
    (pass2St a1 i0).spec.src = specA.src ∧
    (pass2St a1 i0).spec.pkg_name = specA.pkg_name ∧
    (pass2St a1 i0).spec.pkg_hash = specA.pkg_hash ∧
    (∀ n, n ∈ (pass2St b1 i0).spec.exclude_pkgs ↔
      (n ∈ specB.exclude_pkgs ∨ (n ∈ pkgNames b1.packages ∧ n ∉ i0))) ∧
    (∀ n, (n ∈ (pass2St b1 i0).spec.exclude_pkgs ∧ n ∉ specB.exclude_pkgs) ↔
      (n ∈ pkgNames b1.packages ∧ n ∉ i0)) ∧
    (pass2St b1 i0).spec.src = specB.src ∧
    (pass2St b1 i0).spec.pkg_name = specB.pkg_name ∧
    (pass2St b1 i0).spec.pkg_hash = specB.pkg_hash ∧
    (pass2St a1 i0).packages = [] ∧ (pass2St b1 i0).packages = [] ∧
    (pass2St a1 i0).lockfile = lfA ∧ (pass2St b1 i0).lockfile = lfB ∧
    (pass2St a1 i0).phase = Phase.nameAndVersionIntersection ∧
    (pass2St b1 i0).phase = Phase.nameAndVersionIntersection ∧
    runPasses fuel v lfA lfB specA specB =
      secondPhase fuel v (pass2St a1 i0) (pass2St b1 i0) := by
  obtain ⟨hA, hB, hi⟩ := calcInter_ok_elim h
  have hsA : a1.spec = specA := (add_packages_frame hA).1
  have hsB : b1.spec = specB := (add_packages_frame hB).1
  have hdisjA : ∀ n ∈ specA.exclude_pkgs, n ∉ pkgNames a1.packages :=
    fun n hn => add_packages_excl hA rfl n hn
  have hdisjB : ∀ n ∈ specB.exclude_pkgs, n ∉ pkgNames b1.packages :=
    fun n hn => add_packages_excl hB rfl n hn
  have hiffA : ∀ n, n ∈ (pass2St a1 i0).spec.exclude_pkgs ↔
      (n ∈ specA.exclude_pkgs ∨ (n ∈ pkgNames a1.packages ∧ n ∉ i0)) := by
    intro n
    rw [show (pass2St a1 i0).spec = narrowSpec a1.spec (pkgNames a1.packages) i0 from rfl,
      mem_narrow_iff, hsA]
  have hiffB : ∀ n, n ∈ (pass2St b1 i0).spec.exclude_pkgs ↔
      (n ∈ specB.exclude_pkgs ∨ (n ∈ pkgNames b1.packages ∧ n ∉ i0)) := by
    intro n
    rw [show (pass2St b1 i0).spec = narrowSpec b1.spec (pkgNames b1.packages) i0 from rfl,
      mem_narrow_iff, hsB]
  refine ⟨hiffA, ?_, by simp [pass2St, narrowSpec, hsA], by simp [pass2St, narrowSpec, hsA],
    by simp [pass2St, narrowSpec, hsA], hiffB, ?_,
    by simp [pass2St, narrowSpec, hsB], by simp [pass2St, narrowSpec, hsB],
    by simp [pass2St, narrowSpec, hsB], rfl, rfl, (add_packages_frame hA).2.1,
    (add_packages_frame hB).2.1, rfl, rfl, runPasses_ok_step h⟩
  · intro n
    constructor
    · rintro ⟨h1, h2⟩
      rcases (hiffA n).mp h1 with h3 | h3
      · exact absurd h3 h2
      · exact h3
    · intro h1
      refine ⟨(hiffA n).mpr (Or.inr h1), fun h2 => ?_⟩
      exact hdisjA n h2 h1.1
  · intro n
    constructor
    · rintro ⟨h1, h2⟩
      rcases (hiffB n).mp h1 with h3 | h3
      · exact absurd h3 h2
      · exact h3
    · intro h1
      refine ⟨(hiffB n).mpr (Or.inr h1), fun h2 => ?_⟩
      exact hdisjB n h2 h1.1

/-- Witness for C2: in the mismatch scenario, side B's name c (outside the
intersection) is newly excluded, the root fields are unchanged, the universe
is cleared, and the second pass runs on the narrowed states. -/
theorem claim_C2_narrowing_witness :
    ("c" ∈ (pass2St exB1 ["a", "b"]).spec.exclude_pkgs ∧
      "c" ∉ exSpecB.exclude_pkgs) ∧
    (pass2St exA1 ["a", "b"]).spec.pkg_name = exSpecA.pkg_name ∧
    (pass2St exA1 ["a", "b"]).packages = [] ∧
    (pass2St exA1 ["a", "b"]).lockfile = exLfA ∧
    runPasses 5 false exLfA exLfB exSpecA exSpecB =
      secondPhase 5 false (pass2St exA1 ["a", "b"]) (pass2St exB1 ["a", "b"]) := by
  obtain ⟨h1, h2, h3, h4, h5, h6, h7, h8, h9, h10, h11, h12, h13, h14, h15, h16, h17⟩ :=
    claim_C2_narrowing 5 false exLfA exLfB exSpecA exSpecB exA1 exB1 ["a", "b"] (by decide)
  exact ⟨(h7 "c").mpr (by decide), h4, h11, h13, h17⟩

/-- C10 counterexample: with only a root hash set, the hash-selected root n1
is absent from the other side's discovery universe, yet the verification
rebuild silently seeds the same-hash package n2 instead, and the run
completes with a success verdict rather than aborting with a root-not-found
error. -/
theorem claim_C10_counterexample :
    addPackagesAndCalcIntersection 3 (initSt exHashSpecA [exHashP1, exHashP2])
        (initSt exSpecB [exHashQ2]) =
      Res.ok (⟨exHashSpecA, [exHashP1, exHashP2], [("n1", exHashP1, [exHashP1])],
          Phase.nameIntersection⟩,
        ⟨exSpecB, [exHashQ2], [("n2", exHashQ2, [exHashQ2])], Phase.nameIntersection⟩,
        []) ∧
    "n1" ∉ pkgNames [("n2", exHashQ2, [exHashQ2])] ∧
    runPasses 3 false [exHashP1, exHashP2] [exHashQ2] exHashSpecA exSpecB =
      Res.ok ([], true) ∧
    run 3 false [exHashP1, exHashP2] [exHashQ2] exHashSpecA exSpecB = Res.ok [] :=
  ⟨by decide, by decide, by decide, by decide⟩

/-- C10 (amended): when a side's Spec has its root selected by name and that
name is absent from the other side's discovery universe, the narrowing step
excludes the root name, the verification rebuild finds no root candidate, and
the whole run aborts with the root-not-found error instead of producing a
comparison verdict. -/
theorem claim_C10_root_pruned (fuel : Nat) (v : Bool) (lfA lfB : List Package)
    (specA specB : Spec) (x : String) (a1 b1 : St) (i0 : List String)
    (hname : specA.pkg_name = some x)
    (h1 : addPackagesAndCalcIntersection fuel (initSt specA lfA) (initSt specB lfB) =
      Res.ok (a1, b1, i0))
    (hx : x ∉ pkgNames b1.packages) :
    runPasses fuel v lfA lfB specA specB =
      Res.err (rootNotFoundMsg (pass2St a1 i0).spec) ∧
    run fuel v lfA lfB specA specB =
      Res.err (rootNotFoundMsg (pass2St a1 i0).spec) := by
  obtain ⟨hA, hB, hi0⟩ := calcInter_ok_elim h1
  have hsA : a1.spec = specA := (add_packages_frame hA).1
  have hxa : x ∈ pkgNames a1.packages := rooted_root_mem hname hA
  have hxi0 : x ∉ i0 := by
    rw [hi0]
    intro hmem
    exact hx ((mem_interList).mp hmem).2
  have hxexcl : x ∈ (pass2St a1 i0).spec.exclude_pkgs := by
    rw [show (pass2St a1 i0).spec = narrowSpec a1.spec (pkgNames a1.packages) i0 from rfl]
    exact (mem_narrow_iff).mpr (Or.inr ⟨hxa, hxi0⟩)
  have hname2 : (pass2St a1 i0).spec.pkg_name = some x := by
    show a1.spec.pkg_name = some x
    rw [hsA]
    exact hname
  have hfind : (pass2St a1 i0).lockfile.find?
      (fun p => seedMatches (pass2St a1 i0).spec p) = none := by
    refine List.find?_eq_none.mpr (fun p hp hseed => ?_)
    have hs := seedMatches_spec hseed
    have hpn : p.name = x := hs.2.1 x hname2
    rw [hpn] at hs
    exact hs.1 hxexcl
  have htree : add_packages fuel (pass2St a1 i0) =
      Res.err (rootNotFoundMsg (pass2St a1 i0).spec) := by
    unfold add_packages
    rw [if_pos (by rw [hname2]; rfl)]
    unfold add_packages_in_dependency_tree
    simp only [hfind]
  have hrp : runPasses fuel v lfA lfB specA specB =
      Res.err (rootNotFoundMsg (pass2St a1 i0).spec) := by
    rw [runPasses_ok_step h1, secondPhase_err_step (calcInter_err_left htree)]
  exact ⟨hrp, run_of_err hrp⟩

/-- Witness for C10 (amended): a concrete run whose name-selected root is
absent on the other side aborts with the root-not-found error. -/
theorem claim_C10_root_pruned_witness :
    runPasses 2 false [exRootA] [exRootB] exSpecRootA exSpecB =
      Res.err (rootNotFoundMsg (pass2St exA1r []).spec) ∧
    run 2 false [exRootA] [exRootB] exSpecRootA exSpecB =
      Res.err (rootNotFoundMsg (pass2St exA1r []).spec) :=
  claim_C10_root_pruned 2 false [exRootA] [exRootB] exSpecRootA exSpecB "a" exA1r exB1r []
    rfl (by decide) (by decide)


/-- C4: a cross-lockfile version mismatch never aborts the comparison early:
when both passes succeed, the run reaches a verdict whose report covers every
common name (with a DIFFERENT record for each mismatching one), the process
result is success exactly when every common name has equal versions, and any
build or root-selection error of either pass aborts the run with that error
and no verdict. -/
theorem claim_C4_complete_report (fuel : Nat) (v : Bool) (lfA lfB : List Package)
    (sA sB : Spec) :
    (∀ a1 b1 i0 a2 b2 i,
      addPackagesAndCalcIntersection fuel (initSt sA lfA) (initSt sB lfB) =
        Res.ok (a1, b1, i0) →
      addPackagesAndCalcIntersection fuel (pass2St a1 i0) (pass2St b1 i0) =
        Res.ok (a2, b2, i) →
      runPasses fuel v lfA lfB sA sB =
        Res.ok ((reportLines v a2.packages b2.packages i).2,
          (reportLines v a2.packages b2.packages i).1) ∧
      ((reportLines v a2.packages b2.packages i).1 = true ↔
        ∀ n ∈ i, ∀ pa pb, findPkg a2.packages n = some pa →
          findPkg b2.packages n = some pb → pa.1.version = pb.1.version) ∧
      (∀ n ∈ i, ∃ pa pb, findPkg a2.packages n = some pa ∧
        findPkg b2.packages n = some pb ∧
        (pa.1.version ≠ pb.1.version →
          Line.different n pa.1.version pb.1.version (path_to_str pa.2)
            (path_to_str pb.2) ∈ (reportLines v a2.packages b2.packages i).2)) ∧
      run fuel v lfA lfB sA sB =
        (if (reportLines v a2.packages b2.packages i).1 = true then
          Res.ok (reportLines v a2.packages b2.packages i).2
        else Res.err "Some packages have different versions")) ∧
    (∀ e, addPackagesAndCalcIntersection fuel (initSt sA lfA) (initSt sB lfB) =
        Res.err e →
      runPasses fuel v lfA lfB sA sB = Res.err e ∧
      run fuel v lfA lfB sA sB = Res.err e) ∧
    (∀ a1 b1 i0 e,
      addPackagesAndCalcIntersection fuel (initSt sA lfA) (initSt sB lfB) =
        Res.ok (a1, b1, i0) →
      addPackagesAndCalcIntersection fuel (pass2St a1 i0) (pass2St b1 i0) = Res.err e →
      runPasses fuel v lfA lfB sA sB = Res.err e ∧
      run fuel v lfA lfB sA sB = Res.err e) := by
  refine ⟨?_, ?_, ?_⟩
  · intro a1 b1 i0 a2 b2 i h1 h2
    have hrp : runPasses fuel v lfA lfB sA sB =
        Res.ok ((reportLines v a2.packages b2.packages i).2,
          (reportLines v a2.packages b2.packages i).1) := by
      rw [runPasses_ok_step h1, secondPhase_ok_step h2]
    refine ⟨hrp, reportLines_all_iff i v a2.packages b2.packages, ?_, ?_⟩
    · intro n hn
      have hi : i = interList a2.packages b2.packages := (calcInter_ok_elim h2).2.2
      have hmem : n ∈ pkgNames a2.packages ∧ n ∈ pkgNames b2.packages := by
        rw [hi] at hn
        exact (mem_interList).mp hn
      obtain ⟨pa, hpa⟩ := (mem_pkgNames_iff _ _).mp hmem.1
      obtain ⟨pb, hpb⟩ := (mem_pkgNames_iff _ _).mp hmem.2
      exact ⟨pa, pb, hpa, hpb, fun hne =>
        reportLines_different_mem i v a2.packages b2.packages n pa pb hn hpa hpb hne⟩
    · by_cases hall : (reportLines v a2.packages b2.packages i).1 = true
      · rw [if_pos hall]
        exact run_of_ok (by rw [hrp, hall])
      · rw [if_neg hall]
        have hfalse : (reportLines v a2.packages b2.packages i).1 = false := by
          revert hall
          cases (reportLines v a2.packages b2.packages i).1 <;> simp
        exact run_of_mismatch (by rw [hrp, hfalse])
  · intro e he
    have h1 : runPasses fuel v lfA lfB sA sB = Res.err e := runPasses_err_step he
    exact ⟨h1, run_of_err h1⟩
  · intro a1 b1 i0 e h1 h2
    have h3 : runPasses fuel v lfA lfB sA sB = Res.err e := by
      rw [runPasses_ok_step h1, secondPhase_err_step h2]
    exact ⟨h3, run_of_err h3⟩

/-- Witness for C4: the mismatch scenario reaches a verdict covering both
common names and fails overall, exercising the success-path conjunct at a
concrete input. -/
theorem claim_C4_complete_report_witness :
    runPasses 5 false exLfA exLfB exSpecA exSpecB =
      Res.ok ((reportLines false exA2.packages exB2.packages ["a", "b"]).2,
        (reportLines false exA2.packages exB2.packages ["a", "b"]).1) ∧
    ((reportLines false exA2.packages exB2.packages ["a", "b"]).1 = true ↔
      ∀ n ∈ (["a", "b"] : List String), ∀ pa pb, findPkg exA2.packages n = some pa →
        findPkg exB2.packages n = some pb → pa.1.version = pb.1.version) ∧
    (∀ n ∈ (["a", "b"] : List String), ∃ pa pb, findPkg exA2.packages n = some pa ∧
      findPkg exB2.packages n = some pb ∧
      (pa.1.version ≠ pb.1.version →
        Line.different n pa.1.version pb.1.version (path_to_str pa.2) (path_to_str pb.2)
          ∈ (reportLines false exA2.packages exB2.packages ["a", "b"]).2)) ∧
    run 5 false exLfA exLfB exSpecA exSpecB =
      (if (reportLines false exA2.packages exB2.packages ["a", "b"]).1 = true then
        Res.ok (reportLines false exA2.packages exB2.packages ["a", "b"]).2
      else Res.err "Some packages have different versions") :=
  (claim_C4_complete_report 5 false exLfA exLfB exSpecA exSpecB).1 exA1 exB1 ["a", "b"]
    exA2 exB2 ["a", "b"] (by decide) (by decide)

/-- C5 counterexample: on identical one-package lockfiles the claim predicts
a SAME line for the common package x regardless of verbosity, but the run
emits no per-package line unless the verbose flag is set. -/
theorem claim_C5_counterexample :
    runPasses 2 false [⟨"x", "1", none, none, []⟩] [⟨"x", "1", none, none, []⟩]
        ⟨"A", none, none, ∅⟩ ⟨"B", none, none, ∅⟩ = Res.ok ([], true) ∧
    runPasses 2 true [⟨"x", "1", none, none, []⟩] [⟨"x", "1", none, none, []⟩]
        ⟨"A", none, none, ∅⟩ ⟨"B", none, none, ∅⟩ =
      Res.ok ([Line.same "x" "1"], true) :=
  ⟨by decide, by decide⟩

/-- C5 (amended): the diff report iterates the final intersection in
ascending name order; for each common package with differing versions it
always emits a DIFFERENT record carrying both versions and both rendered
dependency paths; a SAME record for a common package is emitted exactly when
the verbose flag is set and the versions agree. -/
theorem claim_C5_report_lines (fuel : Nat) (v : Bool) (lfA lfB : List Package)
    (sA sB : Spec) (a1 b1 : St) (i0 : List String) (a2 b2 : St) (i : List String)
    (h1 : addPackagesAndCalcIntersection fuel (initSt sA lfA) (initSt sB lfB) =
      Res.ok (a1, b1, i0))
    (h2 : addPackagesAndCalcIntersection fuel (pass2St a1 i0) (pass2St b1 i0) =
      Res.ok (a2, b2, i)) :
    runPasses fuel v lfA lfB sA sB =
      Res.ok ((reportLines v a2.packages b2.packages i).2,
        (reportLines v a2.packages b2.packages i).1) ∧
    i.Sorted strLeP ∧ i.Nodup ∧
    (∀ n, n ∈ i ↔ (n ∈ pkgNames a2.packages ∧ n ∈ pkgNames b2.packages)) ∧
    (∀ n pa pb, n ∈ i → findPkg a2.packages n = some pa →
      findPkg b2.packages n = some pb → pa.1.version ≠ pb.1.version →
      Line.different n pa.1.version pb.1.version (path_to_str pa.2) (path_to_str pb.2) ∈
        (reportLines v a2.packages b2.packages i).2) ∧
    (∀ n ver, Line.same n ver ∈ (reportLines v a2.packages b2.packages i).2 ↔
      (v = true ∧ ∃ m ∈ i, m = n ∧ ∃ pa pb, findPkg a2.packages m = some pa ∧
        findPkg b2.packages m = some pb ∧ pa.1.version = pb.1.version ∧
        ver = pa.1.version)) := by
  have hi : i = interList a2.packages b2.packages := (calcInter_ok_elim h2).2.2
  refine ⟨by rw [runPasses_ok_step h1, secondPhase_ok_step h2], ?_, ?_, ?_, ?_, ?_⟩
  · rw [hi]
    exact interList_sorted _ _
  · rw [hi]
    exact interList_nodup _ _
  · intro n
    rw [hi]
    exact mem_interList
  · intro n pa pb hn hpa hpb hne
    exact reportLines_different_mem i v a2.packages b2.packages n pa pb hn hpa hpb hne
  · intro n ver
    exact reportLines_same_mem_iff i v a2.packages b2.packages n ver

/-- Witness for C5 (amended): under verbose the mismatch scenario emits one
SAME record and one DIFFERENT record over the sorted intersection, and no
SAME record for the pruned name c. -/
theorem claim_C5_report_lines_witness :
    runPasses 5 true exLfA exLfB exSpecA exSpecB =
      Res.ok ([Line.same "a" "1", Line.different "b" "1" "2" "b@1" "b@2"], false) ∧
    (["a", "b"] : List String).Sorted strLeP ∧
    Line.different "b" "1" "2" "b@1" "b@2" ∈
      (reportLines true exA2.packages exB2.packages ["a", "b"]).2 ∧
    Line.same "c" "1" ∉ (reportLines true exA2.packages exB2.packages ["a", "b"]).2 := by
  obtain ⟨hA, hSort, hNodup, hMem, hDiff, hSame⟩ :=
    claim_C5_report_lines 5 true exLfA exLfB exSpecA exSpecB exA1 exB1 ["a", "b"] exA2
      exB2 ["a", "b"] (by decide) (by decide)
  refine ⟨hA.trans (by decide), hSort, ?_, ?_⟩
  · exact hDiff "b" (exWb1, [exWb1]) (exWb2, [exWb2]) (by decide) (by decide) (by decide)
      (by decide)
  · intro hmem
    obtain ⟨-, m, hm, rfl, -⟩ := (hSame "c" "1").mp hmem
    exact absurd hm (by decide)

/-- C9: with no exclusions and no root constraints on either side, the
printed intersection size in the discovery pass and in the verification pass
both equal the cardinality of the set intersection of the two lockfiles'
full package-name sets computed independently. -/
theorem claim_C9_intersection_size (fuel : Nat) (lfA lfB : List Package)
    (specA specB : Spec)
    (hA1 : specA.pkg_name = none) (hA2 : specA.pkg_hash = none)
    (hA3 : specA.exclude_pkgs = ∅)
    (hB1 : specB.pkg_name = none) (hB2 : specB.pkg_hash = none)
    (hB3 : specB.exclude_pkgs = ∅)
    (hndA : (lfA.map Package.name).Nodup) (hndB : (lfB.map Package.name).Nodup) :
    ∃ a1 b1 i0 a2 b2 i,
      addPackagesAndCalcIntersection fuel (initSt specA lfA) (initSt specB lfB) =
        Res.ok (a1, b1, i0) ∧
      i0.length = (lockfileNames lfA ∩ lockfileNames lfB).card ∧
      addPackagesAndCalcIntersection fuel (pass2St a1 i0) (pass2St b1 i0) =
        Res.ok (a2, b2, i) ∧
      i.length = (lockfileNames lfA ∩ lockfileNames lfB).card := by
  obtain ⟨a1, hA⟩ := addAllLoop_ok_nameOnly
    (lfA.filter (fun p => decide (p.name ∉ (initSt specA lfA).spec.exclude_pkgs)))
    (initSt specA lfA) rfl
  obtain ⟨b1, hB⟩ := addAllLoop_ok_nameOnly
    (lfB.filter (fun p => decide (p.name ∉ (initSt specB lfB).spec.exclude_pkgs)))
    (initSt specB lfB) rfl
  have haddA : add_packages fuel (initSt specA lfA) = Res.ok a1 := by
    unfold add_packages
    rw [if_neg (by simp [initSt, hA1, hA2])]
    exact hA
  have haddB : add_packages fuel (initSt specB lfB) = Res.ok b1 := by
    unfold add_packages
    rw [if_neg (by simp [initSt, hB1, hB2])]
    exact hB
  have hnA : pkgNames a1.packages = lockfileNames lfA := by
    rw [addAllLoop_names _ _ _ hA, filter_names_toFinset]
    rw [show (initSt specA lfA).spec.exclude_pkgs = specA.exclude_pkgs from rfl, hA3]
    simp [initSt, pkgNames]
  have hnB : pkgNames b1.packages = lockfileNames lfB := by
    rw [addAllLoop_names _ _ _ hB, filter_names_toFinset]
    rw [show (initSt specB lfB).spec.exclude_pkgs = specB.exclude_pkgs from rfl, hB3]
    simp [initSt, pkgNames]
  have hsA : a1.spec = specA := (addAllLoop_spec _ _ _ hA).1.1
  have hsB : b1.spec = specB := (addAllLoop_spec _ _ _ hB).1.1
  have hlA : a1.lockfile = lfA := (addAllLoop_spec _ _ _ hA).1.2.1
  have hlB : b1.lockfile = lfB := (addAllLoop_spec _ _ _ hB).1.2.1
  set i0 : List String := interList a1.packages b1.packages with hi0def
  have hp1 := calcInter_ok_intro haddA haddB
  have hi0len : i0.length = (lockfileNames lfA ∩ lockfileNames lfB).card := by
    rw [hi0def, interList_length, hnA, hnB]
  have hmemi0 : ∀ n, n ∈ i0 ↔ (n ∈ lockfileNames lfA ∧ n ∈ lockfileNames lfB) := by
    intro n
    rw [hi0def]
    rw [show (interList a1.packages b1.packages : List String) = interList a1.packages b1.packages from rfl]
    rw [← hnA, ← hnB]
    exact mem_interList
  have hexA : ∀ n, n ∈ (pass2St a1 i0).spec.exclude_pkgs ↔
      (n ∈ lockfileNames lfA ∧ n ∉ i0) := by
    intro n
    rw [show (pass2St a1 i0).spec = narrowSpec a1.spec (pkgNames a1.packages) i0 from rfl,
      mem_narrow_iff, hsA, hA3, hnA]
    simp
  have hexB : ∀ n, n ∈ (pass2St b1 i0).spec.exclude_pkgs ↔
      (n ∈ lockfileNames lfB ∧ n ∉ i0) := by
    intro n
    rw [show (pass2St b1 i0).spec = narrowSpec b1.spec (pkgNames b1.packages) i0 from rfl,
      mem_narrow_iff, hsB, hB3, hnB]
    simp
  have hndA2 : (((pass2St a1 i0).lockfile.filter
      (fun p => decide (p.name ∉ (pass2St a1 i0).spec.exclude_pkgs))).map
        Package.name).Nodup := by
    show ((a1.lockfile.filter _).map Package.name).Nodup
    rw [hlA]
    exact hndA.sublist (List.Sublist.map _ (List.filter_sublist _))
  have hndB2 : (((pass2St b1 i0).lockfile.filter
      (fun p => decide (p.name ∉ (pass2St b1 i0).spec.exclude_pkgs))).map
        Package.name).Nodup := by
    show ((b1.lockfile.filter _).map Package.name).Nodup
    rw [hlB]
    exact hndB.sublist (List.Sublist.map _ (List.filter_sublist _))
  obtain ⟨a2, hA2'⟩ := addAllLoop_ok_of_nodup _ (pass2St a1 i0) hndA2 (by
    intro p hp
    simp [pass2St, pkgNames])
  obtain ⟨b2, hB2'⟩ := addAllLoop_ok_of_nodup _ (pass2St b1 i0) hndB2 (by
    intro p hp
    simp [pass2St, pkgNames])
  have haddA2 : add_packages fuel (pass2St a1 i0) = Res.ok a2 := by
    unfold add_packages
    rw [if_neg (by
      show ¬ ((a1.spec.pkg_name.isSome || a1.spec.pkg_hash.isSome) = true)
      simp [hsA, hA1, hA2])]
    exact hA2'
  have haddB2 : add_packages fuel (pass2St b1 i0) = Res.ok b2 := by
    unfold add_packages
    rw [if_neg (by
      show ¬ ((b1.spec.pkg_name.isSome || b1.spec.pkg_hash.isSome) = true)
      simp [hsB, hB1, hB2])]
    exact hB2'
  have hn2A : pkgNames a2.packages =
      lockfileNames lfA \ (pass2St a1 i0).spec.exclude_pkgs := by
    rw [addAllLoop_names _ _ _ hA2']
    rw [show (pass2St a1 i0).lockfile = a1.lockfile from rfl, hlA, filter_names_toFinset]
    simp [pass2St, pkgNames]
  have hn2B : pkgNames b2.packages =
      lockfileNames lfB \ (pass2St b1 i0).spec.exclude_pkgs := by
    rw [addAllLoop_names _ _ _ hB2']
    rw [show (pass2St b1 i0).lockfile = b1.lockfile from rfl, hlB, filter_names_toFinset]
    simp [pass2St, pkgNames]
  have hn2A' : pkgNames a2.packages = lockfileNames lfA ∩ lockfileNames lfB := by
    rw [hn2A]
    ext n
    rw [Finset.mem_sdiff, hexA n, Finset.mem_inter]
    constructor
    · rintro ⟨h1, h2⟩
      by_cases h3 : n ∈ i0
      · exact ⟨h1, ((hmemi0 n).mp h3).2⟩
      · exact absurd ⟨h1, h3⟩ h2
    · rintro ⟨h1, h2⟩
      exact ⟨h1, fun h3 => h3.2 ((hmemi0 n).mpr ⟨h1, h2⟩)⟩
  have hn2B' : pkgNames b2.packages = lockfileNames lfA ∩ lockfileNames lfB := by
    rw [hn2B]
    ext n
    rw [Finset.mem_sdiff, hexB n, Finset.mem_inter]
    constructor
    · rintro ⟨h1, h2⟩
      by_cases h3 : n ∈ i0
      · exact ⟨((hmemi0 n).mp h3).1, h1⟩
      · exact absurd ⟨h1, h3⟩ h2
    · rintro ⟨h1, h2⟩
      exact ⟨h2, fun h3 => h3.2 ((hmemi0 n).mpr ⟨h1, h2⟩)⟩
  refine ⟨a1, b1, i0, a2, b2, interList a2.packages b2.packages, hp1, hi0len,
    calcInter_ok_intro haddA2 haddB2, ?_⟩
  rw [interList_length, hn2A', hn2B', Finset.inter_self]

/-- Witness for C9: two concrete two-package lockfiles sharing one name give
intersection size one in both passes. -/
theorem claim_C9_intersection_size_witness :
    ∃ a1 b1 i0 a2 b2 i,
      addPackagesAndCalcIntersection 3 (initSt exSpecA [exWb1, exWc])
        (initSt exSpecB [exWc, exWd]) = Res.ok (a1, b1, i0) ∧
      i0.length = (lockfileNames [exWb1, exWc] ∩ lockfileNames [exWc, exWd]).card ∧
      addPackagesAndCalcIntersection 3 (pass2St a1 i0) (pass2St b1 i0) =
        Res.ok (a2, b2, i) ∧
      i.length = (lockfileNames [exWb1, exWc] ∩ lockfileNames [exWc, exWd]).card :=
  claim_C9_intersection_size 3 [exWb1, exWc] [exWc, exWd] exSpecA exSpecB rfl rfl rfl rfl
    rfl rfl (by decide) (by decide)


end LockDiff
